import Mathlib

/-!
Verification of the graph scripts in lucasvianav/graphs-intro.

Each Python `Graph` class and its algorithms are shallowly embedded:
pure data is translated to Lean structures, loops become fuel-indexed
recursive functions (with a proved-sufficient fuel bound supplied at the
top level), and code that raises an exception is modelled as returning
`none` / a failure constructor.  Python `int` values are modelled as `ℤ`
(including Python's negative-index list semantics where the code relies
on them), node identifiers inside the traversal algorithms as `ℕ`.
-/

namespace GraphsIntro

/-- The sentinel `inf = sys.maxsize` used by the weighted scripts
(`ex05/main.py`, `proj02/main.py`): on a 64-bit CPython this is `2^63 - 1`. -/
def pyInf : ℤ := 2 ^ 63 - 1

/-! ### Python list indexing

`l[i]` and `l[i] = v` for a Python list of length `n` accept `-n ≤ i < n`,
where a negative `i` addresses `l[n + i]`; anything else raises `IndexError`. -/

/-- Normalize a Python index against a length: `some` of the real position,
`none` when the access raises `IndexError`. -/
def pyIdx (n : ℕ) (i : ℤ) : Option ℕ :=
  if 0 ≤ i ∧ i < (n : ℤ) then some i.toNat
  else if -(n : ℤ) ≤ i ∧ i < 0 then some (i + n).toNat
  else none

/-- Python list read `l[i]` (`none` on `IndexError`). -/
def pyGet (l : List α) (i : ℤ) : Option α :=
  (pyIdx l.length i).bind fun k => l.get? k

/-- Python list write `l[i] = v` (`none` on `IndexError`). -/
def pySet (l : List α) (i : ℤ) (v : α) : Option (List α) :=
  (pyIdx l.length i).map fun k => l.set k v

/-- Python 2-dimensional write `m[i][j] = v`. -/
def pySet2 (m : List (List α)) (i j : ℤ) (v : α) : Option (List (List α)) :=
  (pyIdx m.length i).bind fun k =>
    (pySet (m.getD k []) j v).map fun row => m.set k row

/-! ## `ex01/ex2021.py`: the 2021 exercise `Graph` class

Only the parts claim C9 is about are embedded: the adjacency matrix and
`areAdjacent`.  Positions are 1-based Python ints. -/

/-- The `Graph` of `ex01/ex2021.py`: a node count and an adjacency matrix of
Python ints (`0` denotes absence; any nonzero entry is truthy). -/
structure Graph2021 where
  N : ℤ
  matrix : List (List ℤ)
deriving DecidableEq

/-- Matrix entry at 0-based `ℕ` coordinates (total read used once indices are
known to be in `[0, N)`, where no negative-index wrapping can occur). -/
def Graph2021.entry (g : Graph2021) (a b : ℕ) : ℤ :=
  (g.matrix.getD a []).getD b 0

/-- `Graph.areAdjacent(i, j)` from `ex01/ex2021.py`:
`bool(M[i-1][j-1] or M[j-1][i-1])` when `1 ≤ i ≤ N` and `1 ≤ j ≤ N`,
`None` otherwise. -/
def Graph2021.areAdjacent (g : Graph2021) (i j : ℤ) : Option Bool :=
  if 1 ≤ i ∧ i ≤ g.N ∧ 1 ≤ j ∧ j ≤ g.N then
    some (!((g.entry (i - 1).toNat (j - 1).toNat == 0) &&
            (g.entry (j - 1).toNat (i - 1).toNat == 0)))
  else none

/-! ## `ex02/main.py`: undirected unweighted edge-list builder

`Graph.__init__(N, edges)` builds an `N × N` 0/1 matrix and a dict
`neighbors = {0: set(), …, N-1: set()}`.  For each edge `(a, b)` it computes
`i = a - 1`, `j = b - 1`, raises `ValueError` when `i >= N or j >= N`, then
runs `M[i][j] = M[j][i] = 1`, `neighbors[i].add(j)`, `neighbors[j].add(i)`.
A negative `i` or `j` that survives the bound check either wraps the matrix
write (Python negative indexing) or raises `KeyError`/`IndexError`; every
raise aborts construction (`none`). -/

/-- `Graph` of `ex02/main.py` as built (also reused, directed, by
`ex04`/`ex05`-style classes below). -/
structure GraphRawU where
  N : ℤ
  matrix : List (List ℤ)
  neighbors : List (Finset ℤ)
deriving DecidableEq

/-- `neighbors[key].add(v)` on a dict whose keys are exactly `0, …, n-1`:
`KeyError` (`none`) when the key is not one of them. -/
def dictAdd (nb : List (Finset ℤ)) (key v : ℤ) : Option (List (Finset ℤ)) :=
  if 0 ≤ key ∧ key < (nb.length : ℤ) then
    some (nb.set key.toNat (insert v (nb.getD key.toNat ∅)))
  else none

/-- One loop iteration of `ex02`'s constructor over the running
`(matrix, neighbors)` state. -/
def stepU (N : ℤ) (st : List (List ℤ) × List (Finset ℤ)) (e : List ℤ) :
    Option (List (List ℤ) × List (Finset ℤ)) :=
  if e.length = 2 then
    let i : ℤ := e.getD 0 0 - 1
    let j : ℤ := e.getD 1 0 - 1
    if i ≥ N ∨ j ≥ N then none
    else
      (pySet2 st.1 i j 1).bind fun m1 =>
        (pySet2 m1 j i 1).bind fun m2 =>
          (dictAdd st.2 i j).bind fun n1 =>
            (dictAdd n1 j i).map fun n2 => (m2, n2)
  else none

/-- `Graph.__init__` of `ex02/main.py`. -/
def constructU (N : ℤ) (edges : List (List ℤ)) : Option GraphRawU :=
  (edges.foldlM (stepU N)
      (List.replicate N.toNat (List.replicate N.toNat 0),
       List.replicate N.toNat (∅ : Finset ℤ))).map
    fun st => ⟨N, st.1, st.2⟩

/-- The exact per-edge condition under which `ex02`'s constructor accepts an
edge record (wrong arity or any index outside `[0, N)` raises). -/
def validU (N : ℤ) (e : List ℤ) : Prop :=
  e.length = 2 ∧ 0 ≤ e.getD 0 0 - 1 ∧ e.getD 0 0 - 1 < N ∧
    0 ≤ e.getD 1 0 - 1 ∧ e.getD 1 0 - 1 < N

instance : DecidablePred (validU N) := fun _ => by
  unfold validU; infer_instance

/-! ## `ex05/main.py`: directed weighted edge-list builder

Same shape, but arcs carry three fields, the matrix is initialised with the
`inf` sentinel, and only `neighbors[i].add(j)` runs — `neighbors[j]` is never
touched, so a negative target index `j` with `-N ≤ j` is silently accepted:
the matrix write wraps around to column `N + j` while the neighbor set
records the negative `j` itself. -/

/-- One loop iteration of `ex05`'s constructor. -/
def stepW (N : ℤ) (st : List (List ℤ) × List (Finset ℤ)) (e : List ℤ) :
    Option (List (List ℤ) × List (Finset ℤ)) :=
  if e.length = 3 then
    let i : ℤ := e.getD 0 0 - 1
    let j : ℤ := e.getD 1 0 - 1
    if i ≥ N ∨ j ≥ N then none
    else
      (pySet2 st.1 i j (e.getD 2 0)).bind fun m1 =>
        (dictAdd st.2 i j).map fun n1 => (m1, n1)
  else none

/-- `Graph.__init__` of `ex05/main.py` (the same constructor appears in
`proj02/main.py`). -/
def constructW (N : ℤ) (arcs : List (List ℤ)) : Option GraphRawU :=
  (arcs.foldlM (stepW N)
      (List.replicate N.toNat (List.replicate N.toNat pyInf),
       List.replicate N.toNat (∅ : Finset ℤ))).map
    fun st => ⟨N, st.1, st.2⟩

/-- The exact per-arc condition under which `ex05`'s constructor accepts an
arc record: arity 3, source index in `[0, N)`, target index in `[-N, N)`. -/
def validW (N : ℤ) (e : List ℤ) : Prop :=
  e.length = 3 ∧ 0 ≤ e.getD 0 0 - 1 ∧ e.getD 0 0 - 1 < N ∧
    -N ≤ e.getD 1 0 - 1 ∧ e.getD 1 0 - 1 < N

instance : DecidablePred (validW N) := fun _ => by
  unfold validW; infer_instance

/-! ## `ex01/main.py`: Erdős–Rényi random builder

The constructor draws `random()` once per ordered pair `(i, j)` with
`i > j` (the conditional expression only evaluates `random()` in that
branch) and stores `int(random() > p)` into both mirrored cells.  Each
off-diagonal unordered pair is written exactly once, at iteration
`(max, min)`, and diagonal cells keep their initial `0`, so the final
matrix is described cell by cell from the draw sequence.  Draws are
modelled as a sequence `u : ℕ → ℚ` consumed in iteration order: before
row `i` exactly `0 + 1 + ⋯ + (i-1)` draws happened, and within row `i`
one draw per column `j < i`. -/

/-- `int(draw > p)`. -/
def erFlag (p draw : ℚ) : ℤ := if p < draw then 1 else 0

/-- Number of draws consumed before row `i`: `i * (i - 1) / 2`. -/
def erBefore (i : ℕ) : ℕ := i * (i - 1) / 2

/-- The generated matrix, cell by cell. -/
def erMatrix (n : ℕ) (p : ℚ) (u : ℕ → ℚ) : List (List ℤ) :=
  (List.range n).map fun a =>
    (List.range n).map fun b =>
      if b < a then erFlag p (u (erBefore a + b))
      else if a < b then erFlag p (u (erBefore b + a))
      else 0

/-- The `Graph` of `ex01/main.py`. -/
structure GraphER where
  N : ℤ
  p : ℚ
  matrix : List (List ℤ)
deriving DecidableEq

/-- `Graph.__init__` of `ex01/main.py`: `ValueError` unless `0 ≤ p ≤ 1`. -/
def constructER (N : ℤ) (p : ℚ) (u : ℕ → ℚ) : Option GraphER :=
  if 0 ≤ p ∧ p ≤ 1 then some ⟨N, p, erMatrix N.toNat p u⟩ else none

/-- Dimension bookkeeping for the builders' running state: an `n × n` matrix
and a neighbor dict with keys `0, …, n-1`. -/
def RawDims (n : ℕ) (st : List (List ℤ) × List (Finset ℤ)) : Prop :=
  st.1.length = n ∧ (∀ row ∈ st.1, row.length = n) ∧ st.2.length = n

/-- The builder-state synchronization property claim C6 is about: row `a`'s
neighbor set holds exactly the in-range columns whose matrix entry differs
from the absence marker (`0` for the unweighted builder, the `inf` sentinel
for the weighted one). -/
def SyncAt (N marker : ℤ) (st : List (List ℤ) × List (Finset ℤ)) : Prop :=
  ∀ a : ℕ, a < N.toNat → ∀ x : ℤ,
    (x ∈ st.2.getD a ∅ ↔
      (0 ≤ x ∧ x < N ∧ (st.1.getD a []).getD x.toNat 0 ≠ marker))

/-! ## Traversal algorithms

The traversal methods (`bfs`, `island_has_cycle`, `has_cycle`, `dijkstra`,
`prim`) only read `self.N` and `self.neighbors` (plus `self.matrix` for the
weighted ones).  They are embedded over this view of a graph, with node
identifiers as `ℕ`; `toU` below maps a successfully built `GraphRawU` onto
it.  Python's unspecified set-iteration order is fixed to ascending order.
Loops are fuel-indexed; every top-level entry point passes a fuel proved
sufficient below, so the `none` (fuel ran out) branch is unreachable. -/

/-- A graph as the traversal algorithms see it. -/
structure GraphU where
  N : ℕ
  nbrs : ℕ → List ℕ

/-- Well-formedness of the neighbor dict: per-key lists are duplicate-free
(sets), hold in-range nodes only, and keys outside `0, …, N-1` are empty. -/
def WfU (g : GraphU) : Prop :=
  ∀ n, (g.nbrs n).Nodup ∧ (∀ m ∈ g.nbrs n, m < g.N) ∧ (g.N ≤ n → g.nbrs n = [])

/-- The algorithm view of a built graph: node ids become `ℕ` (valid builds
only ever store ids in `[0, N)`). -/
def GraphRawU.toU (g : GraphRawU) : GraphU where
  N := g.N.toNat
  nbrs := fun n => ((g.neighbors.getD n ∅).sort (· ≤ ·)).map Int.toNat

/-- `p` is a node sequence that starts at `a`, ends at `b` and follows
edges of `g` (the paths `bfs` returns and the paths the spec quantifies
over). -/
def IsPathFrom (g : GraphU) (a b : ℕ) (p : List ℕ) : Prop :=
  p.head? = some a ∧ p.getLast? = some b ∧
    List.Chain' (fun x y => y ∈ g.nbrs x) p

/-- Some path from `a` to `b` exists (reflexive: the one-node path). -/
def Reachable (g : GraphU) (a b : ℕ) : Prop :=
  ∃ p, IsPathFrom g a b p

/-- Hop distance: the least edge count over paths from `a` to `b`
(`Nat.sInf ∅ = 0` when unreachable; only used under reachability). -/
noncomputable def hDist (g : GraphU) (a b : ℕ) : ℕ :=
  sInf {k | ∃ p, IsPathFrom g a b p ∧ p.length = k + 1}

/-- `Graph.bfs` (`ex02/main.py`) as a fuel-indexed loop over the queue of
paths and the visited set.  One iteration: pop the front path, skip it if
its endpoint was already analyzed, return `path + [target]` the moment the
target shows up among the endpoint's unvisited neighbors, otherwise mark
the endpoint and enqueue every one-step extension. -/
def bfsRun (g : GraphU) (target : ℕ) :
    ℕ → List (List ℕ) → Finset ℕ → Option (List ℕ)
  | 0, _, _ => none
  | _ + 1, [], _ => some []
  | fuel + 1, path :: rest, hist =>
      let curr := path.getLastD 0
      if curr ∈ hist then bfsRun g target fuel rest hist
      else
        let adjacencies := (g.nbrs curr).filter (fun m => decide (m ∉ hist))
        if target ∈ adjacencies then some (path ++ [target])
        else
          bfsRun g target fuel
            (rest ++ adjacencies.map fun m => path ++ [m]) (insert curr hist)

/-- Decreasing measure of the `bfs` loop: every iteration either marks a
new in-range node as analyzed or strictly shrinks the queue. -/
def bMeasure (g : GraphU) (queue : List (List ℕ)) (hist : Finset ℕ) : ℕ :=
  (Finset.range g.N \ hist).card * (g.N + 1) + queue.length

/-- Fuel sufficient for `bfs` from its initial state. -/
def bfsFuel (g : GraphU) : ℕ := g.N * (g.N + 1) + 2

/-- `Graph.bfs(root, target)` of `ex02/main.py`. -/
def bfs (g : GraphU) (root target : ℕ) : Option (List ℕ) :=
  bfsRun g target (bfsFuel g) [[root]] ∅

/-- The `bfs` loop invariant.  Queue entries are real paths from the root
that avoid the target; their lengths are nondecreasing and within one of
each other (FIFO level order); every edge out of an analyzed node leads to
the target, an analyzed node, or a queued path of controlled length; no
analyzed node has the target as neighbor (the loop would have returned);
and the root is analyzed or queued at length 1. -/
structure BfsInv (g : GraphU) (root target : ℕ) (queue : List (List ℕ))
    (hist : Finset ℕ) : Prop where
  paths : ∀ p ∈ queue, IsPathFrom g root (p.getLastD 0) p ∧ target ∉ p
  sorted : List.Sorted (· ≤ ·) (queue.map List.length)
  close : ∀ p ∈ queue, ∀ q ∈ queue, q.length ≤ p.length + 1
  covered : ∀ x ∈ hist, ∀ nb ∈ g.nbrs x, nb = target ∨ nb ∈ hist ∨
    ∃ q ∈ queue, q.getLastD 0 = nb ∧ q.length ≤ hDist g root x + 2
  tfree : ∀ x ∈ hist, target ∉ g.nbrs x
  rootcov : root ∈ hist ∨ ∃ q ∈ queue, q.getLastD 0 = root ∧ q.length = 1
  tnotin : target ∉ hist

/-! ## `ex04/main.py`: cycle detection -/

/-- `Graph.island_has_cycle` (`ex04/main.py`) as a fuel-indexed loop: pop
the top path from the LIFO stack, mark its endpoint visited, report a cycle
the moment some neighbor of the endpoint already lies on the path, else
push every one-step extension.  There is no global visited-set pruning in
the source, so the search walks every extension.  Pushing the extensions
one by one onto the stack's end is modelled by prepending their reversal
to a head-popped stack. -/
def islandRun (g : GraphU) :
    ℕ → List (List ℕ) → Finset ℕ → Option (Bool × Finset ℕ)
  | 0, _, _ => none
  | _ + 1, [], hist => some (false, hist)
  | fuel + 1, path :: rest, hist =>
      let curr := path.getLastD 0
      if (g.nbrs curr).any fun m => decide (m ∈ path) then
        some (true, insert curr hist)
      else
        islandRun g fuel
          (((g.nbrs curr).map fun m => path ++ [m]).reverse ++ rest)
          (insert curr hist)

/-- Decreasing measure of the island loop: pushed extensions strictly grow
their set of distinct in-range nodes. -/
def iMeasure (g : GraphU) (stack : List (List ℕ)) : ℕ :=
  (stack.map fun p =>
    (g.N + 1) ^ (g.N - (p.toFinset ∩ Finset.range g.N).card)).sum

/-- Fuel sufficient for `island_has_cycle` from its initial state. -/
def islandFuel (g : GraphU) : ℕ := (g.N + 1) ^ g.N + 1

/-- `Graph.island_has_cycle(root)` of `ex04/main.py`. -/
def islandHasCycle (g : GraphU) (root : ℕ) : Option (Bool × Finset ℕ) :=
  islandRun g (islandFuel g) [[root]] ∅

/-- The `for node in range(N)` loop of `Graph.has_cycle`. -/
def hasCycleLoop (g : GraphU) : List ℕ → Finset ℕ → Option Bool
  | [], _ => some false
  | n :: rest, visited =>
      if n ∈ visited then hasCycleLoop g rest visited
      else
        match islandHasCycle g n with
        | none => none
        | some (true, _) => some true
        | some (false, conn) => hasCycleLoop g rest (visited ∪ conn)

/-- `Graph.has_cycle()` of `ex04/main.py`. -/
def hasCycle (g : GraphU) : Option Bool := hasCycleLoop g (List.range g.N) ∅

/-- A directed cycle through `v`: a path from `v` back to itself taking at
least one edge. -/
def CycleAt (g : GraphU) (v : ℕ) : Prop :=
  ∃ p, IsPathFrom g v v p ∧ 2 ≤ p.length

/-- The graph contains a directed cycle. -/
def HasCycleProp (g : GraphU) : Prop := ∃ v, CycleAt g v

/-- A cycle lies in `root`'s island: some node reachable from `root` is on
a cycle. -/
def CycleReachable (g : GraphU) (root : ℕ) : Prop :=
  ∃ v, Reachable g root v ∧ CycleAt g v

/-- The stack entry `p` can be extended along edges into a node repetition
(the certificate that the island search will eventually report a cycle). -/
def Pumpable (g : GraphU) (p : List ℕ) : Prop :=
  ∃ w, List.Chain' (fun x y => y ∈ g.nbrs x) (p ++ w) ∧ ¬(p ++ w).Nodup

/-! ## `ex05/main.py` and `proj02/main.py`: weighted graphs

The weighted `Graph` classes of `ex05` and `proj02` share their
constructor (the same code as the `ex05` builder embedded above); a
successfully constructed weighted graph is abstracted as a node count, a
neighbor-list function and a weight function. -/

structure GraphW where
  N : ℕ
  nbrs : ℕ → List ℕ
  w : ℕ → ℕ → ℤ

/-- Forget the weights: the unweighted view that the path predicates are
stated over. -/
def GraphW.toU (g : GraphW) : GraphU := ⟨g.N, g.nbrs⟩

/-- Conversion of a raw constructed weighted graph (`Graph.__init__` of
`ex05`/`proj02`): neighbor sets sorted, matrix entries as arc weights. -/
def GraphRawU.toW (g : GraphRawU) : GraphW where
  N := g.N.toNat
  nbrs := fun n => ((g.neighbors.getD n ∅).sort (· ≤ ·)).map Int.toNat
  w := fun a b => (g.matrix.getD a []).getD b pyInf

/-- Total weight of a walk: the sum of the weights of its consecutive
arcs. -/
def pathCost (g : GraphW) : List ℕ → ℤ
  | a :: b :: rest => g.w a b + pathCost g (b :: rest)
  | _ => 0

/-- The weighted distance from `a` to `b`: least total weight of a path,
as a natural number (edge weights are assumed non-negative). -/
noncomputable def wDist (g : GraphW) (a b : ℕ) : ℕ :=
  sInf {k | ∃ p, IsPathFrom g.toU a b p ∧ pathCost g p = (k : ℤ)}

/-- Lexicographic comparison of heap keys `(cost, node)`, as performed by
`heapq` on Python tuples. -/
def keyLE (a b : ℤ × ℕ) : Bool :=
  decide (a.1 < b.1) || (decide (a.1 = b.1) && decide (a.2 ≤ b.2))

/-- `heappop` on a heap held as a plain list: select an entry with the
least key (the first such) and return it with the remaining entries.
Entries of equal key are interchangeable, so the list order is
irrelevant to the computed results. -/
def popMinBy (key : α → ℤ × ℕ) : α → List α → α × List α
  | e, [] => (e, [])
  | e, f :: rest =>
      if keyLE (key e) (key f) then
        let r := popMinBy key e rest
        (r.1, f :: r.2)
      else
        let r := popMinBy key f rest
        (r.1, e :: r.2)

/-- `Graph.dijkstra`'s loop (`ex05/main.py`) as a fuel-indexed function.
A frontier entry carries the `(cost, node)` pair the Python heap stores,
plus a ghost `Finset` — the analyzed set snapshot along its push chain —
that never influences any computed value (pops compare `(cost, node)`
only) and serves solely to bound the number of iterations: the loop
pushes only towards unanalyzed nodes, so the ghost strictly grows along
a push chain. -/
def dijkstraRun (g : GraphW) (target : ℕ) :
    ℕ → List (ℤ × ℕ × Finset ℕ) → Finset ℕ → Option ℤ
  | 0, _, _ => none
  | _ + 1, [], _ => some pyInf
  | fuel + 1, e :: rest, hist =>
      let r := popMinBy (fun x => (x.1, x.2.1)) e rest
      if r.1.2.1 = target then some r.1.1
      else
        dijkstraRun g target fuel
          ((((g.nbrs r.1.2.1).filter fun nb =>
              decide (nb ∉ insert r.1.2.1 hist)).map fun nb =>
            (g.w r.1.2.1 nb + r.1.1, nb, insert r.1.2.1 r.1.2.2)) ++ r.2)
          (insert r.1.2.1 hist)

/-- Decreasing measure of the Dijkstra loop, via the ghost components. -/
def qMeasure (g : GraphW) (queue : List (ℤ × ℕ × Finset ℕ)) : ℕ :=
  (queue.map fun e => (g.N + 1) ^ (g.N - e.2.2.card)).sum

/-- Fuel sufficient for `dijkstra` from its initial state. -/
def dijkstraFuel (g : GraphW) : ℕ := (g.N + 1) ^ g.N + 1

/-- `Graph.dijkstra(root, target)` of `ex05/main.py`. -/
def dijkstra (g : GraphW) (root target : ℕ) : Option ℤ :=
  if root = target then some 0
  else dijkstraRun g target (dijkstraFuel g) [(0, root, ∅)] ∅

/-- Loop invariant of the embedded `dijkstra`: every entry's cost is
realized by a path; ghosts are analyzed, in-range, and avoid their own
node; every edge out of the analyzed set is covered by an entry whose
cost is within one optimal-plus-edge bound; the root is analyzed or
queued at cost `≤ 0`; analyzed nodes are reachable; the target is never
analyzed (its pop returns first). -/
structure DijInv (g : GraphW) (root target : ℕ)
    (queue : List (ℤ × ℕ × Finset ℕ)) (hist : Finset ℕ) : Prop where
  costs : ∀ e ∈ queue, ∃ p, IsPathFrom g.toU root e.2.1 p ∧ pathCost g p = e.1
  ghosts : ∀ e ∈ queue, e.2.2 ⊆ hist ∧ e.2.1 ∉ e.2.2 ∧
    e.2.2 ⊆ Finset.range g.N
  frontier : ∀ x ∈ hist, ∀ nb ∈ g.nbrs x, nb ∈ hist ∨
    ∃ e ∈ queue, e.2.1 = nb ∧ e.1 ≤ (wDist g root x : ℤ) + g.w x nb
  rootcov : root ∈ hist ∨ ∃ e ∈ queue, e.2.1 = root ∧ e.1 ≤ 0
  histreach : ∀ x ∈ hist, Reachable g.toU root x
  tnotin : target ∉ hist

/-- `Graph.prim`'s loop (`proj02/main.py`) as a fuel-indexed function:
while fewer than `N` nodes are finalized, pop the least `(cost, node)`
entry; a pop from an empty frontier is the `IndexError` failure
(`Except.error`); an already-finalized node is skipped without pushes;
otherwise its cost joins the accumulator and its edges to unfinalized
nodes are pushed at their own weight. -/
def primRun (g : GraphW) :
    ℕ → List (ℤ × ℕ) → Finset ℕ → ℤ → Option (Except Unit ℤ)
  | 0, _, _, _ => none
  | _ + 1, [], hist, acc =>
      if g.N ≤ hist.card then some (Except.ok acc)
      else some (Except.error ())
  | fuel + 1, e :: rest, hist, acc =>
      if g.N ≤ hist.card then some (Except.ok acc)
      else
        let r := popMinBy (fun x => x) e rest
        if r.1.2 ∈ hist then primRun g fuel r.2 hist acc
        else
          primRun g fuel
            ((((g.nbrs r.1.2).filter fun nb =>
                decide (nb ∉ insert r.1.2 hist)).map fun nb =>
              (g.w r.1.2 nb, nb)) ++ r.2)
            (insert r.1.2 hist) (acc + r.1.1)

/-- Decreasing measure of the Prim loop: finalizing grows the analyzed
set; skipping shrinks the frontier. -/
def pMeasure (g : GraphW) (queue : List (ℤ × ℕ)) (hist : Finset ℕ) : ℕ :=
  (g.N - hist.card) * (g.N + 1) + queue.length

/-- Fuel sufficient for `prim` from its initial state. -/
def primFuel (g : GraphW) : ℕ := g.N * (g.N + 1) + 2

/-- `Graph.prim()` of `proj02/main.py`. -/
def prim (g : GraphW) : Option (Except Unit ℤ) :=
  primRun g (primFuel g) [(0, 0)] ∅ 0

/-- Loop invariant of the embedded `prim`: queued and finalized nodes are
in range and reachable from node `0`, every edge out of the finalized set
is queued, and node `0` is finalized or queued. -/
structure PrimInv (g : GraphW) (queue : List (ℤ × ℕ))
    (hist : Finset ℕ) : Prop where
  qreach : ∀ e ∈ queue, Reachable g.toU 0 e.2
  qrange : ∀ e ∈ queue, e.2 < g.N
  hreach : ∀ x ∈ hist, Reachable g.toU 0 x
  hrange : hist ⊆ Finset.range g.N
  frontier : ∀ x ∈ hist, ∀ nb ∈ g.nbrs x, nb ∈ hist ∨ ∃ e ∈ queue, e.2 = nb
  rootcov : 0 ∈ hist ∨ ∃ e ∈ queue, e.2 = 0

/-! ### Theorems -/

theorem mem_of_getLast? {l : List ℕ} {a : ℕ} (h : l.getLast? = some a) :
    a ∈ l := by
  obtain ⟨hne, rfl⟩ := List.mem_getLast?_eq_getLast (by rw [h]; rfl)
  exact List.getLast_mem hne

theorem getLastD_eq_getLast? (l : List ℕ) (d : ℕ) :
    l.getLastD d = (l.getLast?).getD d := by
  cases l <;> simp [List.getLastD_eq_getLast?]

theorem getLastD_concat (l : List ℕ) (a d : ℕ) : (l ++ [a]).getLastD d = a := by
  rw [getLastD_eq_getLast?, List.getLast?_concat]
  rfl

theorem head?_append_left {l₁ l₂ : List ℕ} (h : l₁ ≠ []) :
    (l₁ ++ l₂).head? = l₁.head? := by
  cases l₁ with
  | nil => exact absurd rfl h
  | cons a t => rfl

theorem opt_isSome_map (o : Option α) (f : α → β) :
    (o.map f).isSome = o.isSome := by
  cases o <;> rfl

theorem list_getD_mem (l : List α) (d : α) {k : ℕ} (h : k < l.length) :
    l.getD k d ∈ l := by
  rw [List.getD_eq_getElem l d h]
  exact List.getElem_mem h

theorem pyIdx_isSome_iff (n : ℕ) (i : ℤ) :
    (pyIdx n i).isSome ↔ (-(n : ℤ) ≤ i ∧ i < n) := by
  unfold pyIdx
  split_ifs with h1 h2 <;> simp <;> omega

theorem pyIdx_some_lt {n : ℕ} {i : ℤ} {k : ℕ} (h : pyIdx n i = some k) :
    k < n := by
  unfold pyIdx at h
  split_ifs at h with h1 h2 <;> rw [Option.some_inj] at h <;> omega

theorem pySet_isSome_iff (l : List α) (i : ℤ) (v : α) :
    (pySet l i v).isSome ↔ (-(l.length : ℤ) ≤ i ∧ i < l.length) := by
  rw [pySet, opt_isSome_map]
  exact pyIdx_isSome_iff _ _

theorem pySet_length {l l' : List α} {i : ℤ} {v : α}
    (h : pySet l i v = some l') : l'.length = l.length := by
  rw [pySet] at h
  rcases hk : pyIdx l.length i with _ | k <;> rw [hk] at h
  · cases h
  · rw [Option.map] at h
    simp only [Option.some.injEq] at h
    rw [← h, List.length_set]

theorem pySet2_isSome_iff {r : ℕ} (m : List (List ℤ)) (i j : ℤ) (v : ℤ)
    (hrow : ∀ row ∈ m, row.length = r) :
    (pySet2 m i j v).isSome ↔
      ((-(m.length : ℤ) ≤ i ∧ i < m.length) ∧ (-(r : ℤ) ≤ j ∧ j < r)) := by
  rw [pySet2]
  rcases hk : pyIdx m.length i with _ | k
  · have h1 := pyIdx_isSome_iff m.length i
    rw [hk] at h1
    simp only [Option.isSome_none, Bool.false_eq_true, false_iff] at h1
    simp [h1]
  · have h1 := pyIdx_isSome_iff m.length i
    rw [hk] at h1
    simp only [Option.isSome_some, true_iff] at h1
    have hk' := pyIdx_some_lt hk
    have hrl : (m.getD k []).length = r := hrow _ (list_getD_mem m [] hk')
    show ((pySet (m.getD k []) j v).map fun row => m.set k row).isSome = true ↔ _
    rw [opt_isSome_map, pySet_isSome_iff, hrl]
    simp [h1]

theorem pySet2_dims {n : ℕ} {m m' : List (List ℤ)} {i j : ℤ} {v : ℤ}
    (h : pySet2 m i j v = some m') (hlen : m.length = n)
    (hrow : ∀ row ∈ m, row.length = n) :
    m'.length = n ∧ ∀ row ∈ m', row.length = n := by
  rw [pySet2] at h
  rcases hk : pyIdx m.length i with _ | k <;> rw [hk] at h
  · cases h
  · rcases hs : pySet (m.getD k []) j v with _ | row'
    · rw [show ((some k).bind fun k => Option.map (fun row => m.set k row) (pySet (m.getD k []) j v)) = Option.map (fun row => m.set k row) (pySet (m.getD k []) j v) from rfl, hs] at h
      cases h
    · rw [show ((some k).bind fun k => Option.map (fun row => m.set k row) (pySet (m.getD k []) j v)) = Option.map (fun row => m.set k row) (pySet (m.getD k []) j v) from rfl, hs] at h
      simp only [Option.map, Option.some.injEq] at h
      subst h
      refine ⟨by rw [List.length_set, hlen], ?_⟩
      intro row hr
      rcases List.mem_or_eq_of_mem_set hr with hr' | rfl
      · exact hrow _ hr'
      · rw [pySet_length hs]
        exact hrow _ (list_getD_mem m [] (pyIdx_some_lt hk))

theorem dictAdd_isSome_iff (nb : List (Finset ℤ)) (key v : ℤ) :
    (dictAdd nb key v).isSome ↔ (0 ≤ key ∧ key < (nb.length : ℤ)) := by
  unfold dictAdd
  split_ifs with h <;> simp [h]

theorem dictAdd_length {nb nb' : List (Finset ℤ)} {key v : ℤ}
    (h : dictAdd nb key v = some nb') : nb'.length = nb.length := by
  unfold dictAdd at h
  split_ifs at h
  rw [Option.some_inj] at h
  rw [← h, List.length_set]

/-- Python truthiness of `bool(x or y)` for two ints. -/
theorem truthy_or_iff (a b : ℤ) :
    ((!((a == 0) && (b == 0))) = true) ↔ (a ≠ 0 ∨ b ≠ 0) := by
  simp [not_and_or]

/-- Claim C9: for every graph and every pair of in-range 1-based positions
`i`, `j`, `areAdjacent i j` answers `true` exactly when the matrix entry
`(i, j)` or `(j, i)` is present (nonzero), and `areAdjacent` is symmetric
in its two arguments. -/
theorem c9_areAdjacent_either_direction (g : Graph2021) (i j : ℤ)
    (hi1 : 1 ≤ i) (hiN : i ≤ g.N) (hj1 : 1 ≤ j) (hjN : j ≤ g.N) :
    (g.areAdjacent i j =
      some true ↔
        (g.entry (i - 1).toNat (j - 1).toNat ≠ 0 ∨
         g.entry (j - 1).toNat (i - 1).toNat ≠ 0)) ∧
    g.areAdjacent i j = g.areAdjacent j i := by
  constructor
  · rw [Graph2021.areAdjacent, if_pos ⟨hi1, hiN, hj1, hjN⟩]
    rw [Option.some_inj]
    exact truthy_or_iff _ _
  · rw [Graph2021.areAdjacent, Graph2021.areAdjacent,
      if_pos ⟨hi1, hiN, hj1, hjN⟩, if_pos ⟨hj1, hjN, hi1, hiN⟩]
    congr 1
    rw [Bool.and_comm]

/-- Witness for C9 on a concrete graph: the 2-node graph with the single
directed edge stored at entry `(1, 2)` answers `true` for both queries. -/
theorem c9_areAdjacent_either_direction_witness :
    (1 : ℤ) ≤ 1 ∧ (1 : ℤ) ≤ 2 ∧ (1 : ℤ) ≤ 2 ∧ (2 : ℤ) ≤ 2 ∧
    ((Graph2021.mk 2 [[0, 1], [0, 0]]).areAdjacent 1 2 =
      some true ↔
        ((Graph2021.mk 2 [[0, 1], [0, 0]]).entry 0 1 ≠ 0 ∨
         (Graph2021.mk 2 [[0, 1], [0, 0]]).entry 1 0 ≠ 0)) ∧
    (Graph2021.mk 2 [[0, 1], [0, 0]]).areAdjacent 1 2 =
      (Graph2021.mk 2 [[0, 1], [0, 0]]).areAdjacent 2 1 := by
  refine ⟨by norm_num, by norm_num, by norm_num, by norm_num, ?_, ?_⟩
  · exact (c9_areAdjacent_either_direction (Graph2021.mk 2 [[0, 1], [0, 0]])
      1 2 (by norm_num) (by norm_num) (by norm_num) (by norm_num)).1
  · exact (c9_areAdjacent_either_direction (Graph2021.mk 2 [[0, 1], [0, 0]])
      1 2 (by norm_num) (by norm_num) (by norm_num) (by norm_num)).2

theorem stepU_isSome_iff {N : ℤ} {st : List (List ℤ) × List (Finset ℤ)}
    {e : List ℤ} (hd : RawDims N.toNat st) :
    (stepU N st e).isSome ↔ validU N e := by
  obtain ⟨h1, h2, h3⟩ := hd
  rw [stepU, validU]
  by_cases ha : e.length = 2
  case neg =>
    rw [if_neg ha]
    simp only [Option.isSome_none, Bool.false_eq_true, false_iff]
    intro hc
    exact ha hc.1
  rw [if_pos ha]
  by_cases hb : (e.getD 0 0 - 1 ≥ N ∨ e.getD 1 0 - 1 ≥ N)
  case pos =>
    rw [if_pos hb]
    simp only [Option.isSome_none, Bool.false_eq_true, false_iff]
    intro hc
    omega
  rw [if_neg hb]
  constructor
  · intro h
    rcases hm1 : pySet2 st.1 (e.getD 0 0 - 1) (e.getD 1 0 - 1) 1 with _ | m1 <;>
      rw [hm1] at h
    · cases h
    rw [Option.some_bind] at h
    rcases hm2 : pySet2 m1 (e.getD 1 0 - 1) (e.getD 0 0 - 1) 1 with _ | m2 <;>
      rw [hm2] at h
    · cases h
    rw [Option.some_bind] at h
    rcases hn1 : dictAdd st.2 (e.getD 0 0 - 1) (e.getD 1 0 - 1) with _ | n1 <;>
      rw [hn1] at h
    · cases h
    rw [Option.some_bind] at h
    rcases hn2 : dictAdd n1 (e.getD 1 0 - 1) (e.getD 0 0 - 1) with _ | n2 <;>
      rw [hn2] at h
    · cases h
    have k1 : (dictAdd st.2 (e.getD 0 0 - 1) (e.getD 1 0 - 1)).isSome := by
      rw [hn1]; rfl
    have k2 : (dictAdd n1 (e.getD 1 0 - 1) (e.getD 0 0 - 1)).isSome := by
      rw [hn2]; rfl
    rw [dictAdd_isSome_iff, h3] at k1
    rw [dictAdd_isSome_iff, dictAdd_length hn1, h3] at k2
    refine ⟨ha, k1.1, ?_, k2.1, ?_⟩ <;> omega
  · intro ⟨_, hi0, hiN, hj0, hjN⟩
    have hN : 0 < N := by omega
    have hm1 : (pySet2 st.1 (e.getD 0 0 - 1) (e.getD 1 0 - 1) 1).isSome := by
      rw [pySet2_isSome_iff _ _ _ _ h2, h1]
      omega
    rcases hm1' : pySet2 st.1 (e.getD 0 0 - 1) (e.getD 1 0 - 1) 1 with _ | m1 <;>
      rw [hm1'] at hm1
    · cases hm1
    obtain ⟨hm1l, hm1r⟩ := pySet2_dims hm1' h1 h2
    have hm2 : (pySet2 m1 (e.getD 1 0 - 1) (e.getD 0 0 - 1) 1).isSome := by
      rw [pySet2_isSome_iff _ _ _ _ hm1r, hm1l]
      omega
    rcases hm2' : pySet2 m1 (e.getD 1 0 - 1) (e.getD 0 0 - 1) 1 with _ | m2 <;>
      rw [hm2'] at hm2
    · cases hm2
    have hn1 : (dictAdd st.2 (e.getD 0 0 - 1) (e.getD 1 0 - 1)).isSome := by
      rw [dictAdd_isSome_iff, h3]
      omega
    rcases hn1' : dictAdd st.2 (e.getD 0 0 - 1) (e.getD 1 0 - 1) with _ | n1 <;>
      rw [hn1'] at hn1
    · cases hn1
    have hn2 : (dictAdd n1 (e.getD 1 0 - 1) (e.getD 0 0 - 1)).isSome := by
      rw [dictAdd_isSome_iff, dictAdd_length hn1', h3]
      omega
    rcases hn2' : dictAdd n1 (e.getD 1 0 - 1) (e.getD 0 0 - 1) with _ | n2 <;>
      rw [hn2'] at hn2
    · cases hn2
    simp only [hm1', Option.some_bind, hm2', hn1', hn2', Option.map_some']
    rfl

theorem stepU_dims {N : ℤ} {st st' : List (List ℤ) × List (Finset ℤ)}
    {e : List ℤ} (h : stepU N st e = some st') (hd : RawDims N.toNat st) :
    RawDims N.toNat st' := by
  obtain ⟨h1, h2, h3⟩ := hd
  rw [stepU] at h
  by_cases ha : e.length = 2
  case neg =>
    rw [if_neg ha] at h
    cases h
  rw [if_pos ha] at h
  by_cases hb : (e.getD 0 0 - 1 ≥ N ∨ e.getD 1 0 - 1 ≥ N)
  case pos =>
    rw [if_pos hb] at h
    cases h
  rw [if_neg hb] at h
  rcases hm1 : pySet2 st.1 (e.getD 0 0 - 1) (e.getD 1 0 - 1) 1 with _ | m1 <;>
    rw [hm1] at h
  · cases h
  rw [Option.some_bind] at h
  rcases hm2 : pySet2 m1 (e.getD 1 0 - 1) (e.getD 0 0 - 1) 1 with _ | m2 <;>
    rw [hm2] at h
  · cases h
  rw [Option.some_bind] at h
  rcases hn1 : dictAdd st.2 (e.getD 0 0 - 1) (e.getD 1 0 - 1) with _ | n1 <;>
    rw [hn1] at h
  · cases h
  rw [Option.some_bind] at h
  rcases hn2 : dictAdd n1 (e.getD 1 0 - 1) (e.getD 0 0 - 1) with _ | n2 <;>
    rw [hn2] at h
  · cases h
  simp only [Option.map, Option.some.injEq] at h
  subst h
  obtain ⟨l1, r1⟩ := pySet2_dims hm1 h1 h2
  obtain ⟨l2, r2⟩ := pySet2_dims hm2 l1 r1
  exact ⟨l2, r2, by rw [dictAdd_length hn2, dictAdd_length hn1, h3]⟩

theorem stepW_isSome_iff {N : ℤ} {st : List (List ℤ) × List (Finset ℤ)}
    {e : List ℤ} (hd : RawDims N.toNat st) :
    (stepW N st e).isSome ↔ validW N e := by
  obtain ⟨h1, h2, h3⟩ := hd
  rw [stepW, validW]
  by_cases ha : e.length = 3
  case neg =>
    rw [if_neg ha]
    simp only [Option.isSome_none, Bool.false_eq_true, false_iff]
    intro hc
    exact ha hc.1
  rw [if_pos ha]
  by_cases hb : (e.getD 0 0 - 1 ≥ N ∨ e.getD 1 0 - 1 ≥ N)
  case pos =>
    rw [if_pos hb]
    simp only [Option.isSome_none, Bool.false_eq_true, false_iff]
    intro hc
    omega
  rw [if_neg hb]
  constructor
  · intro h
    rcases hm1 : pySet2 st.1 (e.getD 0 0 - 1) (e.getD 1 0 - 1) (e.getD 2 0)
        with _ | m1 <;> rw [hm1] at h
    · cases h
    rw [Option.some_bind] at h
    rcases hn1 : dictAdd st.2 (e.getD 0 0 - 1) (e.getD 1 0 - 1) with _ | n1 <;>
      rw [hn1] at h
    · cases h
    have k1 : (dictAdd st.2 (e.getD 0 0 - 1) (e.getD 1 0 - 1)).isSome := by
      rw [hn1]; rfl
    have k2 : (pySet2 st.1 (e.getD 0 0 - 1) (e.getD 1 0 - 1)
        (e.getD 2 0)).isSome := by
      rw [hm1]; rfl
    rw [dictAdd_isSome_iff, h3] at k1
    rw [pySet2_isSome_iff _ _ _ _ h2, h1] at k2
    refine ⟨ha, k1.1, ?_, ?_, ?_⟩ <;> omega
  · intro ⟨_, hi0, hiN, hj0, hjN⟩
    have hN : 0 < N := by omega
    have hm1 : (pySet2 st.1 (e.getD 0 0 - 1) (e.getD 1 0 - 1)
        (e.getD 2 0)).isSome := by
      rw [pySet2_isSome_iff _ _ _ _ h2, h1]
      omega
    rcases hm1' : pySet2 st.1 (e.getD 0 0 - 1) (e.getD 1 0 - 1) (e.getD 2 0)
        with _ | m1 <;> rw [hm1'] at hm1
    · cases hm1
    have hn1 : (dictAdd st.2 (e.getD 0 0 - 1) (e.getD 1 0 - 1)).isSome := by
      rw [dictAdd_isSome_iff, h3]
      omega
    rcases hn1' : dictAdd st.2 (e.getD 0 0 - 1) (e.getD 1 0 - 1) with _ | n1 <;>
      rw [hn1'] at hn1
    · cases hn1
    simp only [hm1', Option.some_bind, hn1', Option.map_some']
    rfl

theorem stepW_dims {N : ℤ} {st st' : List (List ℤ) × List (Finset ℤ)}
    {e : List ℤ} (h : stepW N st e = some st') (hd : RawDims N.toNat st) :
    RawDims N.toNat st' := by
  obtain ⟨h1, h2, h3⟩ := hd
  rw [stepW] at h
  by_cases ha : e.length = 3
  case neg =>
    rw [if_neg ha] at h
    cases h
  rw [if_pos ha] at h
  by_cases hb : (e.getD 0 0 - 1 ≥ N ∨ e.getD 1 0 - 1 ≥ N)
  case pos =>
    rw [if_pos hb] at h
    cases h
  rw [if_neg hb] at h
  rcases hm1 : pySet2 st.1 (e.getD 0 0 - 1) (e.getD 1 0 - 1) (e.getD 2 0)
      with _ | m1 <;> rw [hm1] at h
  · cases h
  rw [Option.some_bind] at h
  rcases hn1 : dictAdd st.2 (e.getD 0 0 - 1) (e.getD 1 0 - 1) with _ | n1 <;>
    rw [hn1] at h
  · cases h
  simp only [Option.map, Option.some.injEq] at h
  subst h
  obtain ⟨l1, r1⟩ := pySet2_dims hm1 h1 h2
  exact ⟨l1, r1, by rw [dictAdd_length hn1, h3]⟩

theorem foldU_isSome_iff {N : ℤ} (edges : List (List ℤ))
    (st : List (List ℤ) × List (Finset ℤ)) (hd : RawDims N.toNat st) :
    (List.foldlM (stepU N) st edges).isSome ↔ ∀ e ∈ edges, validU N e := by
  induction edges generalizing st with
  | nil => simp
  | cons e rest ih =>
    rw [List.foldlM_cons]
    rcases h : stepU N st e with _ | st'
    · have hv := @stepU_isSome_iff N st e hd
      rw [h] at hv
      simp only [Option.isSome_none, Bool.false_eq_true, false_iff] at hv
      simp [hv]
    · have hv := @stepU_isSome_iff N st e hd
      rw [h] at hv
      simp only [Option.isSome_some, true_iff] at hv
      have hd' := stepU_dims h hd
      simp [ih st' hd', hv]

theorem foldW_isSome_iff {N : ℤ} (arcs : List (List ℤ))
    (st : List (List ℤ) × List (Finset ℤ)) (hd : RawDims N.toNat st) :
    (List.foldlM (stepW N) st arcs).isSome ↔ ∀ e ∈ arcs, validW N e := by
  induction arcs generalizing st with
  | nil => simp
  | cons e rest ih =>
    rw [List.foldlM_cons]
    rcases h : stepW N st e with _ | st'
    · have hv := @stepW_isSome_iff N st e hd
      rw [h] at hv
      simp only [Option.isSome_none, Bool.false_eq_true, false_iff] at hv
      simp [hv]
    · have hv := @stepW_isSome_iff N st e hd
      rw [h] at hv
      simp only [Option.isSome_some, true_iff] at hv
      have hd' := stepW_dims h hd
      simp [ih st' hd', hv]

theorem rawDims_init (n : ℕ) (z : ℤ) :
    RawDims n (List.replicate n (List.replicate n z), List.replicate n ∅) := by
  refine ⟨List.length_replicate _ _, ?_, List.length_replicate _ _⟩
  intro row hr
  rw [List.eq_of_mem_replicate hr]
  exact List.length_replicate _ _

/-- Claim C5 (amended): edge-list construction fails — producing no Graph —
exactly when some record has the wrong arity or an index the Python code
cannot store: for the unweighted builder, either endpoint outside `[0, N)`
after 1-based conversion; for the weighted builder, a source outside
`[0, N)` or a target outside `[-N, N)` (a target in `[-N, 0)` is accepted,
silently wrapping the matrix write).  A non-positive node count is not
itself rejected: with an empty edge list, construction succeeds. -/
theorem c5_construct_validation :
    (∀ (N : ℤ) (edges : List (List ℤ)),
      (constructU N edges).isSome ↔ ∀ e ∈ edges, validU N e) ∧
    (∀ (N : ℤ) (arcs : List (List ℤ)),
      (constructW N arcs).isSome ↔ ∀ e ∈ arcs, validW N e) ∧
    (∀ N : ℤ, N ≤ 0 → (constructU N []).isSome ∧ (constructW N []).isSome) := by
  have hU : ∀ (N : ℤ) (edges : List (List ℤ)),
      (constructU N edges).isSome ↔ ∀ e ∈ edges, validU N e := by
    intro N edges
    rw [constructU, opt_isSome_map]
    exact foldU_isSome_iff edges _ (rawDims_init _ _)
  have hW : ∀ (N : ℤ) (arcs : List (List ℤ)),
      (constructW N arcs).isSome ↔ ∀ e ∈ arcs, validW N e := by
    intro N arcs
    rw [constructW, opt_isSome_map]
    exact foldW_isSome_iff arcs _ (rawDims_init _ _)
  refine ⟨hU, hW, fun N _ => ⟨?_, ?_⟩⟩
  · rw [hU]
    simp
  · rw [hW]
    simp

/-- Witness for C5: the validation characterization at a concrete edge list,
and the non-positive node count conjunct at `N = 0`. -/
theorem c5_witness :
    ((constructU 2 [[1, 2]]).isSome ↔ ∀ e ∈ [[1, 2]], validU 2 e) ∧
    ((constructU 0 []).isSome ∧ (constructW 0 []).isSome) :=
  ⟨c5_construct_validation.1 2 [[1, 2]],
   c5_construct_validation.2.2 0 (by norm_num)⟩

/-- Counterexample to claim C5 as stated: the weighted builder accepts the
arc `(1, 0, 5)` on a 2-node graph even though the converted target index
`0 - 1 = -1` lies outside `[0, 2)`, and it also accepts a non-positive node
count — where the claim demands failure for both. -/
theorem c5_counterexample :
    (constructW 2 [[1, 0, 5]]).isSome = true ∧
    (constructU 0 []).isSome = true := by
  constructor <;> decide

theorem list_getD_set_self (l : List α) (a : ℕ) (x d : α) (h : a < l.length) :
    (l.set a x).getD a d = x := by
  rw [List.getD_eq_getElem?_getD, List.getElem?_set_self]
  · rfl
  · exact h

theorem list_getD_set_ne (l : List α) {a b : ℕ} (x : α) (d : α) (h : a ≠ b) :
    (l.set a x).getD b d = l.getD b d := by
  rw [List.getD_eq_getElem?_getD, List.getElem?_set_ne h,
    List.getD_eq_getElem?_getD]

theorem pySet2_pos_eq {m : List (List ℤ)} {i j : ℤ} {v : ℤ}
    (hi0 : 0 ≤ i) (hil : i < (m.length : ℤ))
    (hj0 : 0 ≤ j) (hjl : j < ((m.getD i.toNat []).length : ℤ)) :
    pySet2 m i j v = some (m.set i.toNat ((m.getD i.toNat []).set j.toNat v)) := by
  rw [pySet2, pyIdx, if_pos ⟨hi0, hil⟩, Option.some_bind, pySet, pyIdx,
    if_pos ⟨hj0, hjl⟩]
  rfl

theorem dictAdd_pos_eq {nb : List (Finset ℤ)} {k v : ℤ}
    (hk0 : 0 ≤ k) (hkl : k < (nb.length : ℤ)) :
    dictAdd nb k v = some (nb.set k.toNat (insert v (nb.getD k.toNat ∅))) := by
  rw [dictAdd, if_pos ⟨hk0, hkl⟩]

theorem stepU_sync {N : ℤ} {st st1 : List (List ℤ) × List (Finset ℤ)}
    {e : List ℤ} (h : stepU N st e = some st1) (hd : RawDims N.toNat st)
    (hs : SyncAt N 0 st) : SyncAt N 0 st1 := by
  have hv : validU N e := by
    rw [← @stepU_isSome_iff N st e hd, h]
    rfl
  obtain ⟨har, hi0, hiN, hj0, hjN⟩ := hv
  obtain ⟨h1, h2, h3⟩ := hd
  set i : ℤ := e.getD 0 0 - 1 with hidef
  set j : ℤ := e.getD 1 0 - 1 with hjdef
  have hilen : i < (st.1.length : ℤ) := by rw [h1]; omega
  have hrow1 : (st.1.getD i.toNat []).length = N.toNat :=
    h2 _ (list_getD_mem _ _ (by omega))
  have hm1 := @pySet2_pos_eq st.1 i j 1 hi0 hilen hj0
    (by rw [hrow1]; omega)
  set M1 : List (List ℤ) := st.1.set i.toNat ((st.1.getD i.toNat []).set j.toNat 1)
    with hM1def
  have hM1len : M1.length = N.toNat := by rw [hM1def, List.length_set, h1]
  have hM1row : ∀ row ∈ M1, row.length = N.toNat := by
    intro row hr
    rcases List.mem_or_eq_of_mem_set hr with hr' | rfl
    · exact h2 _ hr'
    · rw [List.length_set, hrow1]
  have hrow2 : (M1.getD j.toNat []).length = N.toNat :=
    hM1row _ (list_getD_mem _ _ (by rw [hM1len]; omega))
  have hm2 := @pySet2_pos_eq M1 j i 1 hj0
    (by rw [hM1len]; omega) hi0 (by rw [hrow2]; omega)
  set M2 : List (List ℤ) := M1.set j.toNat ((M1.getD j.toNat []).set i.toNat 1)
    with hM2def
  have hn1 := @dictAdd_pos_eq st.2 i j hi0 (by rw [h3]; omega)
  set NB1 : List (Finset ℤ) := st.2.set i.toNat (insert j (st.2.getD i.toNat ∅))
    with hNB1def
  have hNB1len : NB1.length = N.toNat := by rw [hNB1def, List.length_set, h3]
  have hn2 := @dictAdd_pos_eq NB1 j i hj0
    (by rw [hNB1len]; omega)
  set NB2 : List (Finset ℤ) := NB1.set j.toNat (insert i (NB1.getD j.toNat ∅))
    with hNB2def
  have hst1 : st1 = (M2, NB2) := by
    rw [stepU, if_pos har, ← hidef, ← hjdef, if_neg (by omega), hm1,
      Option.some_bind, hm2, Option.some_bind, hn1, Option.some_bind, hn2] at h
    exact (Option.some_inj.mp h).symm
  -- membership in the updated neighbor dict
  have hmem : ∀ (a : ℕ), a < N.toNat → ∀ x : ℤ,
      (x ∈ NB2.getD a ∅ ↔
        (x ∈ st.2.getD a ∅ ∨ (a = i.toNat ∧ x = j) ∨ (a = j.toNat ∧ x = i))) := by
    intro a ha x
    by_cases haj : a = j.toNat
    · subst haj
      rw [hNB2def, list_getD_set_self _ _ _ _ (by rw [hNB1len]; omega)]
      by_cases hij : i.toNat = j.toNat
      · rw [hNB1def, ← hij, list_getD_set_self _ _ _ _ (by rw [h3]; omega)]
        simp only [Finset.mem_insert]
        constructor
        · rintro (rfl | rfl | hx)
          · right; right; exact ⟨by trivial, rfl⟩
          · right; left; exact ⟨by trivial, rfl⟩
          · left; exact hx
        · rintro (hx | ⟨_, rfl⟩ | ⟨_, rfl⟩)
          · right; right; exact hx
          · right; left; rfl
          · left; rfl
      · rw [hNB1def, list_getD_set_ne _ _ _ (fun hc => hij hc)]
        simp only [Finset.mem_insert]
        constructor
        · rintro (rfl | hx)
          · right; right; exact ⟨by trivial, rfl⟩
          · left; exact hx
        · rintro (hx | ⟨hc, rfl⟩ | ⟨_, rfl⟩)
          · right; exact hx
          · exact absurd hc.symm hij
          · left; rfl
    · rw [hNB2def, list_getD_set_ne _ _ _ (fun hc => haj hc.symm)]
      by_cases hai : a = i.toNat
      · subst hai
        rw [hNB1def, list_getD_set_self _ _ _ _ (by rw [h3]; omega)]
        simp only [Finset.mem_insert]
        constructor
        · rintro (rfl | hx)
          · right; left; exact ⟨by trivial, rfl⟩
          · left; exact hx
        · rintro (hx | ⟨_, rfl⟩ | ⟨hc, rfl⟩)
          · right; exact hx
          · left; rfl
          · exact absurd hc haj
      · rw [hNB1def, list_getD_set_ne _ _ _ (fun hc => hai hc.symm)]
        constructor
        · intro hx
          left; exact hx
        · rintro (hx | ⟨hc, rfl⟩ | ⟨hc, rfl⟩)
          · exact hx
          · exact absurd hc hai
          · exact absurd hc haj
  -- the updated matrix entry
  have hmat : ∀ (a : ℕ), a < N.toNat → ∀ x : ℤ, 0 ≤ x → x < N →
      ((M2.getD a []).getD x.toNat 0 ≠ 0 ↔
        ((st.1.getD a []).getD x.toNat 0 ≠ 0 ∨
          (a = i.toNat ∧ x = j) ∨ (a = j.toNat ∧ x = i))) := by
    intro a ha x hx0 hxN
    by_cases haj : a = j.toNat
    · subst haj
      rw [hM2def, list_getD_set_self _ _ _ _ (by rw [hM1len]; omega)]
      by_cases hxi : x.toNat = i.toNat
      · rw [hxi, list_getD_set_self _ _ _ _ (by rw [hrow2]; omega)]
        have : x = i := by omega
        subst this
        simp only [ne_eq, one_ne_zero, not_false_iff, true_iff]
        right; right; exact ⟨by trivial, by trivial⟩
      · rw [list_getD_set_ne _ _ _ (fun hc => hxi hc.symm)]
        by_cases hji : j.toNat = i.toNat
        · rw [hM1def, ← hji, list_getD_set_self _ _ _ _ (by rw [h1]; omega)]
          by_cases hxj : x.toNat = j.toNat
          · omega
          · rw [list_getD_set_ne _ _ _ (fun hc => hxj hc.symm)]
            constructor
            · intro hx
              left; exact hx
            · rintro (hx | ⟨_, rfl⟩ | ⟨_, rfl⟩)
              · exact hx
              · omega
              · omega
        · rw [hM1def, list_getD_set_ne _ _ _ (fun hc => hji hc.symm)]
          constructor
          · intro hx
            left; exact hx
          · rintro (hx | ⟨hc, rfl⟩ | ⟨_, rfl⟩)
            · exact hx
            · omega
            · omega
    · rw [hM2def, list_getD_set_ne _ _ _ (fun hc => haj hc.symm)]
      by_cases hai : a = i.toNat
      · subst hai
        rw [hM1def, list_getD_set_self _ _ _ _ (by rw [h1]; omega)]
        by_cases hxj : x.toNat = j.toNat
        · rw [hxj, list_getD_set_self _ _ _ _ (by rw [hrow1]; omega)]
          have : x = j := by omega
          subst this
          simp only [ne_eq, one_ne_zero, not_false_iff, true_iff]
          right; left; exact ⟨by trivial, by trivial⟩
        · rw [list_getD_set_ne _ _ _ (fun hc => hxj hc.symm)]
          constructor
          · intro hx
            left; exact hx
          · rintro (hx | ⟨_, rfl⟩ | ⟨hc, rfl⟩)
            · exact hx
            · omega
            · omega
      · rw [hM1def, list_getD_set_ne _ _ _ (fun hc => hai hc.symm)]
        constructor
        · intro hx
          left; exact hx
        · rintro (hx | ⟨hc, rfl⟩ | ⟨hc, rfl⟩)
          · exact hx
          · omega
          · omega
  -- combine
  rw [hst1]
  intro a ha x
  rw [hmem a ha x]
  constructor
  · rintro (hx | ⟨rfl, rfl⟩ | ⟨rfl, rfl⟩)
    · obtain ⟨hx0, hxN, hold⟩ := (hs a ha x).mp hx
      exact ⟨hx0, hxN, ((hmat a ha x hx0 hxN).mpr (Or.inl hold))⟩
    · exact ⟨hj0, hjN, (hmat _ ha _ hj0 hjN).mpr (Or.inr (Or.inl ⟨rfl, rfl⟩))⟩
    · exact ⟨hi0, hiN, (hmat _ ha _ hi0 hiN).mpr (Or.inr (Or.inr ⟨rfl, rfl⟩))⟩
  · rintro ⟨hx0, hxN, hnew⟩
    rcases (hmat a ha x hx0 hxN).mp hnew with hold | hc | hc
    · left
      exact (hs a ha x).mpr ⟨hx0, hxN, hold⟩
    · right; left; exact hc
    · right; right; exact hc

theorem list_getD_replicate (n a : ℕ) (x d : α) (h : a < n) :
    (List.replicate n x).getD a d = x := by
  rw [List.getD_eq_getElem?_getD, List.getElem?_replicate, if_pos h]
  rfl

theorem stepW_sync {N : ℤ} {st st1 : List (List ℤ) × List (Finset ℤ)}
    {e : List ℤ} (h : stepW N st e = some st1) (hd : RawDims N.toNat st)
    (hj0 : 0 ≤ e.getD 1 0 - 1) (hw : e.getD 2 0 ≠ pyInf)
    (hs : SyncAt N pyInf st) : SyncAt N pyInf st1 := by
  have hv : validW N e := by
    rw [← @stepW_isSome_iff N st e hd, h]
    rfl
  obtain ⟨har, hi0, hiN, _, hjN⟩ := hv
  obtain ⟨h1, h2, h3⟩ := hd
  set i : ℤ := e.getD 0 0 - 1 with hidef
  set j : ℤ := e.getD 1 0 - 1 with hjdef
  have hilen : i < (st.1.length : ℤ) := by rw [h1]; omega
  have hrow1 : (st.1.getD i.toNat []).length = N.toNat :=
    h2 _ (list_getD_mem _ _ (by omega))
  have hm1 := @pySet2_pos_eq st.1 i j (e.getD 2 0)
    hi0 hilen hj0 (by rw [hrow1]; omega)
  set M1 : List (List ℤ) :=
    st.1.set i.toNat ((st.1.getD i.toNat []).set j.toNat (e.getD 2 0)) with hM1def
  have hn1 := @dictAdd_pos_eq st.2 i j hi0 (by rw [h3]; omega)
  set NB1 : List (Finset ℤ) := st.2.set i.toNat (insert j (st.2.getD i.toNat ∅))
    with hNB1def
  have hst1 : st1 = (M1, NB1) := by
    rw [stepW, if_pos har, ← hidef, ← hjdef, if_neg (by omega), hm1,
      Option.some_bind, hn1] at h
    exact (Option.some_inj.mp h).symm
  have hmem : ∀ (a : ℕ), a < N.toNat → ∀ x : ℤ,
      (x ∈ NB1.getD a ∅ ↔ (x ∈ st.2.getD a ∅ ∨ (a = i.toNat ∧ x = j))) := by
    intro a ha x
    by_cases hai : a = i.toNat
    · subst hai
      rw [hNB1def, list_getD_set_self _ _ _ _ (by rw [h3]; omega)]
      simp only [Finset.mem_insert]
      constructor
      · rintro (rfl | hx)
        · right; exact ⟨by trivial, by trivial⟩
        · left; exact hx
      · rintro (hx | ⟨_, rfl⟩)
        · right; exact hx
        · left; rfl
    · rw [hNB1def, list_getD_set_ne _ _ _ (fun hc => hai hc.symm)]
      constructor
      · intro hx
        left; exact hx
      · rintro (hx | ⟨hc, rfl⟩)
        · exact hx
        · exact absurd hc hai
  have hmat : ∀ (a : ℕ), a < N.toNat → ∀ x : ℤ, 0 ≤ x → x < N →
      ((M1.getD a []).getD x.toNat 0 ≠ pyInf ↔
        ((st.1.getD a []).getD x.toNat 0 ≠ pyInf ∨ (a = i.toNat ∧ x = j))) := by
    intro a ha x hx0 hxN
    by_cases hai : a = i.toNat
    · subst hai
      rw [hM1def, list_getD_set_self _ _ _ _ (by rw [h1]; omega)]
      by_cases hxj : x.toNat = j.toNat
      · rw [hxj, list_getD_set_self _ _ _ _ (by rw [hrow1]; omega)]
        have : x = j := by omega
        subst this
        simp only [hw, ne_eq, not_false_iff, true_iff]
        right; exact ⟨by trivial, by trivial⟩
      · rw [list_getD_set_ne _ _ _ (fun hc => hxj hc.symm)]
        constructor
        · intro hx
          left; exact hx
        · rintro (hx | ⟨_, rfl⟩)
          · exact hx
          · omega
    · rw [hM1def, list_getD_set_ne _ _ _ (fun hc => hai hc.symm)]
      constructor
      · intro hx
        left; exact hx
      · rintro (hx | ⟨hc, rfl⟩)
        · exact hx
        · exact absurd hc hai
  rw [hst1]
  intro a ha x
  rw [hmem a ha x]
  constructor
  · rintro (hx | ⟨rfl, rfl⟩)
    · obtain ⟨hx0, hxN, hold⟩ := (hs a ha x).mp hx
      exact ⟨hx0, hxN, (hmat a ha x hx0 hxN).mpr (Or.inl hold)⟩
    · exact ⟨hj0, hjN, (hmat _ ha _ hj0 hjN).mpr (Or.inr ⟨rfl, rfl⟩)⟩
  · rintro ⟨hx0, hxN, hnew⟩
    rcases (hmat a ha x hx0 hxN).mp hnew with hold | hc
    · left
      exact (hs a ha x).mpr ⟨hx0, hxN, hold⟩
    · right; exact hc

theorem foldU_sync {N : ℤ} (edges : List (List ℤ))
    (st st' : List (List ℤ) × List (Finset ℤ)) (hd : RawDims N.toNat st)
    (hs : SyncAt N 0 st)
    (h : List.foldlM (stepU N) st edges = some st') : SyncAt N 0 st' := by
  induction edges generalizing st with
  | nil =>
    rw [List.foldlM_nil] at h
    exact Option.some_inj.mp h ▸ hs
  | cons e rest ih =>
    rw [show List.foldlM (stepU N) st (e :: rest) =
        (stepU N st e).bind (fun st1 => List.foldlM (stepU N) st1 rest) from by
      rw [List.foldlM_cons]; rfl] at h
    rcases he : stepU N st e with _ | st1 <;> rw [he] at h
    · cases h
    rw [Option.some_bind] at h
    exact ih st1 (stepU_dims he hd) (stepU_sync he hd hs) h

theorem foldW_sync {N : ℤ} (arcs : List (List ℤ))
    (st st' : List (List ℤ) × List (Finset ℤ)) (hd : RawDims N.toNat st)
    (harc : ∀ e ∈ arcs, 0 ≤ e.getD 1 0 - 1 ∧ e.getD 2 0 ≠ pyInf)
    (hs : SyncAt N pyInf st)
    (h : List.foldlM (stepW N) st arcs = some st') : SyncAt N pyInf st' := by
  induction arcs generalizing st with
  | nil =>
    rw [List.foldlM_nil] at h
    exact Option.some_inj.mp h ▸ hs
  | cons e rest ih =>
    rw [show List.foldlM (stepW N) st (e :: rest) =
        (stepW N st e).bind (fun st1 => List.foldlM (stepW N) st1 rest) from by
      rw [List.foldlM_cons]; rfl] at h
    rcases he : stepW N st e with _ | st1 <;> rw [he] at h
    · cases h
    rw [Option.some_bind] at h
    obtain ⟨hj0, hw⟩ := harc e (List.mem_cons_self e rest)
    exact ih st1 (stepW_dims he hd)
      (fun e' he' => harc e' (List.mem_cons_of_mem _ he'))
      (stepW_sync he hd hj0 hw hs) h

theorem syncU_init (N : ℤ) :
    SyncAt N 0 (List.replicate N.toNat (List.replicate N.toNat 0),
      List.replicate N.toNat ∅) := by
  intro a ha x
  constructor
  · intro hx
    rw [list_getD_replicate _ _ _ _ ha] at hx
    cases hx
  · rintro ⟨hx0, hxN, hne⟩
    rw [list_getD_replicate _ _ _ _ ha,
      list_getD_replicate _ _ _ _ (by omega)] at hne
    exact absurd rfl hne

theorem syncW_init (N : ℤ) :
    SyncAt N pyInf (List.replicate N.toNat (List.replicate N.toNat pyInf),
      List.replicate N.toNat ∅) := by
  intro a ha x
  constructor
  · intro hx
    rw [list_getD_replicate _ _ _ _ ha] at hx
    cases hx
  · rintro ⟨hx0, hxN, hne⟩
    rw [list_getD_replicate _ _ _ _ ha,
      list_getD_replicate _ _ _ _ (by omega)] at hne
    exact absurd rfl hne

/-- Claim C6 (amended): for the unweighted builder, every successfully
constructed graph satisfies the round-trip property: `neighbors[a]` holds
exactly the in-range columns `x` with `matrix[a][x] ≠ 0`.  For the weighted
builder the same holds with the `inf` sentinel as the absence marker,
provided every accepted arc has a non-negative converted target index and a
weight different from the sentinel; without that proviso the property fails
(see the counterexample). -/
theorem c6_neighbors_matrix_roundtrip :
    (∀ (N : ℤ) (edges : List (List ℤ)) (g : GraphRawU),
      constructU N edges = some g →
      ∀ a : ℕ, a < N.toNat → ∀ x : ℤ,
        (x ∈ g.neighbors.getD a ∅ ↔
          (0 ≤ x ∧ x < N ∧ (g.matrix.getD a []).getD x.toNat 0 ≠ 0))) ∧
    (∀ (N : ℤ) (arcs : List (List ℤ)) (g : GraphRawU),
      constructW N arcs = some g →
      (∀ e ∈ arcs, 0 ≤ e.getD 1 0 - 1 ∧ e.getD 2 0 ≠ pyInf) →
      ∀ a : ℕ, a < N.toNat → ∀ x : ℤ,
        (x ∈ g.neighbors.getD a ∅ ↔
          (0 ≤ x ∧ x < N ∧ (g.matrix.getD a []).getD x.toNat 0 ≠ pyInf))) := by
  constructor
  · intro N edges g hg
    rw [constructU] at hg
    rcases hf : List.foldlM (stepU N)
        (List.replicate N.toNat (List.replicate N.toNat 0),
         List.replicate N.toNat ∅) edges with _ | st' <;> rw [hf] at hg
    · cases hg
    rw [Option.map_some'] at hg
    have hsync := foldU_sync edges _ st' (rawDims_init _ _) (syncU_init N) hf
    rw [← Option.some_inj.mp hg]
    exact hsync
  · intro N arcs g hg harc
    rw [constructW] at hg
    rcases hf : List.foldlM (stepW N)
        (List.replicate N.toNat (List.replicate N.toNat pyInf),
         List.replicate N.toNat ∅) arcs with _ | st' <;> rw [hf] at hg
    · cases hg
    rw [Option.map_some'] at hg
    have hsync := foldW_sync arcs _ st' (rawDims_init _ _) harc (syncW_init N) hf
    rw [← Option.some_inj.mp hg]
    exact hsync

/-- Counterexample to claim C6 as stated: `constructW 2 [[1, 0, 5]]`
succeeds, its matrix entry `(0, 1)` is present (the write to column `-1`
wrapped around to column `1`), yet `1` is not in `neighbors[0]` — the
neighbor set instead records the raw index `-1`. -/
theorem c6_counterexample :
    constructW 2 [[1, 0, 5]] =
      some (GraphRawU.mk 2 [[pyInf, 5], [pyInf, pyInf]] [{-1}, ∅]) ∧
    ((GraphRawU.mk 2 [[pyInf, 5], [pyInf, pyInf]] [{-1}, ∅]).matrix.getD 0
        []).getD 1 0 ≠ pyInf ∧
    (1 : ℤ) ∉ (GraphRawU.mk 2 [[pyInf, 5], [pyInf, pyInf]]
        [{-1}, ∅]).neighbors.getD 0 ∅ := by
  refine ⟨by decide, by decide, by decide⟩

/-- Witness for C6 on concrete builds: the 2-node undirected graph from the
single edge `(1, 2)` and the 2-node weighted graph from the arc `(1, 2, 7)`,
queried at row 0, column 1. -/
theorem c6_witness :
    ((1 : ℤ) ∈ (GraphRawU.mk 2 [[0, 1], [1, 0]]
        [{1}, {0}]).neighbors.getD 0 ∅ ↔
      (0 ≤ (1 : ℤ) ∧ (1 : ℤ) < 2 ∧
        ((GraphRawU.mk 2 [[0, 1], [1, 0]] [{1}, {0}]).matrix.getD 0
          []).getD (1 : ℤ).toNat 0 ≠ 0)) ∧
    ((1 : ℤ) ∈ (GraphRawU.mk 2 [[pyInf, 7], [pyInf, pyInf]]
        [{1}, ∅]).neighbors.getD 0 ∅ ↔
      (0 ≤ (1 : ℤ) ∧ (1 : ℤ) < 2 ∧
        ((GraphRawU.mk 2 [[pyInf, 7], [pyInf, pyInf]] [{1}, ∅]).matrix.getD 0
          []).getD (1 : ℤ).toNat 0 ≠ pyInf)) := by
  constructor
  · exact c6_neighbors_matrix_roundtrip.1 2 [[1, 2]]
      (GraphRawU.mk 2 [[0, 1], [1, 0]] [{1}, {0}]) (by decide) 0 (by decide) 1
  · exact c6_neighbors_matrix_roundtrip.2 2 [[1, 2, 7]]
      (GraphRawU.mk 2 [[pyInf, 7], [pyInf, pyInf]] [{1}, ∅]) (by decide)
      (by decide) 0 (by decide) 1

theorem list_getD_map_range {f : ℕ → α} {n a : ℕ} (d : α) (h : a < n) :
    (((List.range n).map f).getD a d) = f a := by
  rw [List.getD_eq_getElem?_getD, List.getElem?_map, List.getElem?_range h]
  rfl

theorem erMatrix_entry (n : ℕ) (p : ℚ) (u : ℕ → ℚ) {a b : ℕ}
    (ha : a < n) (hb : b < n) :
    ((erMatrix n p u).getD a []).getD b 0 =
      (if b < a then erFlag p (u (erBefore a + b))
       else if a < b then erFlag p (u (erBefore b + a))
       else 0) := by
  rw [erMatrix, list_getD_map_range _ ha, list_getD_map_range _ hb]

theorem erMatrix_entry_out (n : ℕ) (p : ℚ) (u : ℕ → ℚ) {a b : ℕ}
    (h : ¬(a < n ∧ b < n)) :
    ((erMatrix n p u).getD a []).getD b 0 = 0 := by
  by_cases ha : a < n
  · have hb : n ≤ b := by omega
    rw [erMatrix, list_getD_map_range _ ha]
    exact List.getD_eq_default _ _ (by rw [List.length_map, List.length_range]; exact hb)
  · have h1 : (erMatrix n p u).getD a [] = [] :=
      List.getD_eq_default _ _
        (by rw [erMatrix, List.length_map, List.length_range]; omega)
    rw [h1]
    rfl

/-- Claim C8 (amended): construction fails exactly when `p` is outside
`[0, 1]`.  With `p = 1.0` every draw in `[0, 1)` fails the strict test
`draw > p`, so the matrix is identically zero.  With `p = 0.0` an
off-diagonal entry is `1` exactly when that pair's draw is strictly
positive — so the graph is complete whenever every draw is positive, but
a draw of exactly `0.0` (which lies in `[0, 1)`) leaves that edge absent. -/
theorem c8_random_builder :
    (∀ (N : ℤ) (p : ℚ) (u : ℕ → ℚ),
      (constructER N p u).isSome ↔ (0 ≤ p ∧ p ≤ 1)) ∧
    (∀ (N : ℤ) (u : ℕ → ℚ) (g : GraphER),
      (∀ k, 0 ≤ u k ∧ u k < 1) → constructER N 1 u = some g →
      ∀ a b : ℕ, (g.matrix.getD a []).getD b 0 = 0) ∧
    (∀ (N : ℤ) (u : ℕ → ℚ) (g : GraphER),
      constructER N 0 u = some g →
      ∀ a b : ℕ, a < N.toNat → b < N.toNat → a ≠ b →
        ((g.matrix.getD a []).getD b 0 = 1 ↔
          0 < u (erBefore (max a b) + min a b))) := by
  refine ⟨?_, ?_, ?_⟩
  · intro N p u
    rw [constructER]
    split_ifs with h <;> simp [h]
  · intro N u g hu hg
    rw [constructER, if_pos (by norm_num)] at hg
    rw [← Option.some_inj.mp hg]
    intro a b
    by_cases hab : a < N.toNat ∧ b < N.toNat
    · rw [erMatrix_entry _ _ _ hab.1 hab.2]
      have hflag : ∀ k, erFlag 1 (u k) = 0 := by
        intro k
        rw [erFlag, if_neg (by have := (hu k).2; linarith)]
      split_ifs with h1 h2 <;> simp [hflag]
    · exact erMatrix_entry_out _ _ _ hab
  · intro N u g hg a b ha hb hab
    rw [constructER, if_pos (by norm_num)] at hg
    rw [← Option.some_inj.mp hg]
    rcases Nat.lt_or_ge a b with h | h
    · rw [erMatrix_entry _ _ _ ha hb, if_neg (by omega), if_pos h,
        Nat.max_eq_right (le_of_lt h), Nat.min_eq_left (le_of_lt h), erFlag]
      split_ifs with hd <;> simp_all
    · have h' : b < a := by omega
      rw [erMatrix_entry _ _ _ ha hb, if_pos h',
        Nat.max_eq_left (le_of_lt h'), Nat.min_eq_right (le_of_lt h'), erFlag]
      split_ifs with hd <;> simp_all

/-- Counterexample to claim C8 as stated: with `p = 0.0` and the draw
sequence constantly `0.0` (a legal value: `random()` ranges over `[0, 1)`),
the builder produces the empty 2-node graph, not the complete one — the
test `draw > p` fails at `0.0 > 0.0`. -/
theorem c8_counterexample :
    constructER 2 0 (fun _ => 0) = some (GraphER.mk 2 0 [[0, 0], [0, 0]]) ∧
    ((GraphER.mk 2 0 [[0, 0], [0, 0]]).matrix.getD 0 []).getD 1 0 = 0 := by
  refine ⟨by decide, rfl⟩

/-- Witness for C8: concrete instances of the three amended conjuncts at
`N = 2` with the constant draw `1/2`. -/
theorem c8_witness :
    ((constructER 2 (1/2) (fun _ => (1:ℚ)/2)).isSome ↔
      (0 ≤ (1:ℚ)/2 ∧ (1:ℚ)/2 ≤ 1)) ∧
    ((GraphER.mk 2 1 (erMatrix 2 1 (fun _ => (1:ℚ)/2))).matrix.getD 0
        []).getD 1 0 = 0 ∧
    (((GraphER.mk 2 0 (erMatrix 2 0 (fun _ => (1:ℚ)/2))).matrix.getD 0
        []).getD 1 0 = 1 ↔
      0 < (fun _ => (1:ℚ)/2) (erBefore (max 0 1) + min 0 1)) := by
  refine ⟨c8_random_builder.1 2 (1/2) _, ?_, ?_⟩
  · exact c8_random_builder.2.1 2 (fun _ => (1:ℚ)/2) _
      (fun k => by norm_num) (by rw [constructER, if_pos (by norm_num)]; rfl) 0 1
  · exact c8_random_builder.2.2 2 (fun _ => (1:ℚ)/2) _
      (by rw [constructER, if_pos (by norm_num)]; rfl) 0 1
      (by decide) (by decide) (by decide)

theorem nbrs_length_le {g : GraphU} (hw : WfU g) (n : ℕ) :
    (g.nbrs n).length ≤ g.N := by
  obtain ⟨hnd, hlt, _⟩ := hw n
  have hsub : (g.nbrs n).toFinset ⊆ Finset.range g.N := by
    intro m hm
    rw [List.mem_toFinset] at hm
    exact Finset.mem_range.mpr (hlt m hm)
  have := Finset.card_le_card hsub
  rwa [List.toFinset_card_of_nodup hnd, Finset.card_range] at this

theorem sdiff_insert_card (n : ℕ) (hist : Finset ℕ) (curr : ℕ)
    (hc : curr ∉ hist) (hlt : curr < n) :
    (Finset.range n \ insert curr hist).card =
      (Finset.range n \ hist).card - 1 ∧
      1 ≤ (Finset.range n \ hist).card := by
  have hmem : curr ∈ Finset.range n \ hist :=
    Finset.mem_sdiff.mpr ⟨Finset.mem_range.mpr hlt, hc⟩
  constructor
  · have : Finset.range n \ insert curr hist =
        (Finset.range n \ hist).erase curr := by
      ext x
      simp only [Finset.mem_sdiff, Finset.mem_insert, Finset.mem_erase]
      tauto
    rw [this, Finset.card_erase_of_mem hmem]
  · exact Finset.card_pos.mpr ⟨curr, hmem⟩

theorem sdiff_insert_card_out (n : ℕ) (hist : Finset ℕ) (curr : ℕ)
    (hge : n ≤ curr) :
    Finset.range n \ insert curr hist = Finset.range n \ hist := by
  ext x
  simp only [Finset.mem_sdiff, Finset.mem_insert, Finset.mem_range]
  constructor
  · rintro ⟨hx, hni⟩
    exact ⟨hx, fun hh => hni (Or.inr hh)⟩
  · rintro ⟨hx, hni⟩
    refine ⟨hx, ?_⟩
    rintro (rfl | hh)
    · omega
    · exact hni hh

theorem bMeasure_skip (g : GraphU) (p : List ℕ) (rest : List (List ℕ))
    (hist : Finset ℕ) :
    bMeasure g rest hist < bMeasure g (p :: rest) hist := by
  rw [bMeasure, bMeasure, List.length_cons]
  omega

theorem bMeasure_expand {g : GraphU} (hw : WfU g) (p : List ℕ)
    (rest : List (List ℕ)) (hist : Finset ℕ)
    (hc : p.getLastD 0 ∉ hist) (ext : List (List ℕ))
    (hlen : ext.length ≤ ((g.nbrs (p.getLastD 0)).filter
      (fun m => decide (m ∉ hist))).length) :
    bMeasure g (rest ++ ext) (insert (p.getLastD 0) hist) <
      bMeasure g (p :: rest) hist := by
  set curr := p.getLastD 0
  have hflen : ((g.nbrs curr).filter (fun m => decide (m ∉ hist))).length ≤
      (g.nbrs curr).length := List.length_filter_le _ _
  by_cases hlt : curr < g.N
  · obtain ⟨h1, h2⟩ := sdiff_insert_card g.N hist curr hc hlt
    have h3 := nbrs_length_le hw curr
    obtain ⟨d, hd⟩ : ∃ d, (Finset.range g.N \ hist).card = d + 1 :=
      ⟨(Finset.range g.N \ hist).card - 1, by omega⟩
    rw [bMeasure, bMeasure, h1, hd, List.length_append, List.length_cons,
      Nat.add_sub_cancel]
    have hext : ext.length ≤ g.N := le_trans hlen (le_trans hflen h3)
    have hexp : (d + 1) * (g.N + 1) = d * (g.N + 1) + (g.N + 1) := by ring
    rw [hexp]
    linarith
  · have hz : g.nbrs curr = [] := (hw curr).2.2 (by omega)
    have hext : ext.length = 0 := by
      rw [hz] at hlen
      simpa using hlen
    rw [bMeasure, bMeasure, sdiff_insert_card_out g.N hist curr (by omega),
      List.length_append, List.length_cons, hext]
    omega

theorem bfsRun_fuel_eq {g : GraphU} (hw : WfU g) (target : ℕ) :
    ∀ (f₁ : ℕ) {f₂ : ℕ} {queue : List (List ℕ)} {hist : Finset ℕ},
      bMeasure g queue hist < f₁ → bMeasure g queue hist < f₂ →
      bfsRun g target f₁ queue hist = bfsRun g target f₂ queue hist := by
  intro f₁
  induction f₁ with
  | zero => intro f₂ queue hist h1; omega
  | succ f ih =>
    intro f₂ queue hist h1 h2
    rcases f₂ with _ | f₂'
    · omega
    rcases queue with _ | ⟨p, rest⟩
    · rfl
    rw [bfsRun, bfsRun]
    by_cases hc : p.getLastD 0 ∈ hist
    · rw [if_pos hc, if_pos hc]
      have hm := bMeasure_skip g p rest hist
      exact ih (by omega) (by omega)
    · rw [if_neg hc, if_neg hc]
      by_cases ht : target ∈ (g.nbrs (p.getLastD 0)).filter
          (fun m => decide (m ∉ hist))
      · rw [if_pos ht, if_pos ht]
      · rw [if_neg ht, if_neg ht]
        have hm := bMeasure_expand hw p rest hist hc
          (((g.nbrs (p.getLastD 0)).filter
            (fun m => decide (m ∉ hist))).map fun m => p ++ [m])
          (by rw [List.length_map])
        exact ih (by omega) (by omega)

theorem bfsRun_target_mem_hist {g : GraphU} (hw : WfU g) (target : ℕ) :
    ∀ (fuel : ℕ) (queue : List (List ℕ)) (hist : Finset ℕ),
      target ∈ hist → bMeasure g queue hist < fuel →
      bfsRun g target fuel queue hist = some [] := by
  intro fuel
  induction fuel with
  | zero => intro queue hist _ h; omega
  | succ f ih =>
    intro queue hist hht hm
    rcases queue with _ | ⟨p, rest⟩
    · rfl
    rw [bfsRun]
    by_cases hc : p.getLastD 0 ∈ hist
    · rw [if_pos hc]
      have := bMeasure_skip g p rest hist
      exact ih rest hist hht (by omega)
    · rw [if_neg hc]
      have hnt : target ∉ (g.nbrs (p.getLastD 0)).filter
          (fun m => decide (m ∉ hist)) := by
        intro hmem
        have := List.of_mem_filter hmem
        simp only [decide_eq_true_eq] at this
        exact this hht
      rw [if_neg hnt]
      have hm' := bMeasure_expand hw p rest hist hc
        (((g.nbrs (p.getLastD 0)).filter
          (fun m => decide (m ∉ hist))).map fun m => p ++ [m])
        (by rw [List.length_map])
      exact ih _ _ (Finset.mem_insert_of_mem hht) (by omega)

/-- Claim C10: for every well-formed graph and in-range node `r`,
`bfs(r, r)` returns the two-node path `[r, r]` when `r` has a self-loop
and the empty list otherwise — never a zero-length path, because the
target is only recognized among the *unvisited neighbors* of an expanded
node, and `r` enters the visited set on its own expansion. -/
theorem c10_bfs_self_loop (g : GraphU) (hw : WfU g) (r : ℕ) (hr : r < g.N) :
    (r ∈ g.nbrs r → bfs g r r = some [r, r]) ∧
    (r ∉ g.nbrs r → bfs g r r = some []) := by
  have hfilter : (g.nbrs r).filter (fun m => decide (m ∉ (∅ : Finset ℕ))) =
      g.nbrs r := by
    apply List.filter_eq_self.mpr
    intro m _
    simp
  constructor
  · intro hself
    rw [bfs, bfsFuel, bfsRun]
    have hlast : ([r] : List ℕ).getLastD 0 = r := rfl
    rw [hlast, if_neg (Finset.not_mem_empty r), hfilter, if_pos hself]
    rfl
  · intro hno
    rw [bfs, bfsFuel, bfsRun]
    have hlast : ([r] : List ℕ).getLastD 0 = r := rfl
    rw [hlast, if_neg (Finset.not_mem_empty r), hfilter, if_neg hno]
    apply bfsRun_target_mem_hist hw
    · exact Finset.mem_insert_self r ∅
    · have h1 : (Finset.range g.N \ insert r ∅).card = g.N - 1 := by
        have : insert r (∅ : Finset ℕ) ⊆ Finset.range g.N := by
          intro x hx
          rw [Finset.mem_insert] at hx
          rcases hx with rfl | hx
          · exact Finset.mem_range.mpr hr
          · cases hx
        rw [Finset.card_sdiff this]
        simp
      rw [bMeasure, h1, List.nil_append, List.length_map]
      have hlen := nbrs_length_le hw r
      obtain ⟨d, hd⟩ : ∃ d, g.N = d + 1 := ⟨g.N - 1, by omega⟩
      rw [hd, Nat.add_sub_cancel]
      have hexp : (d + 1) * (d + 1 + 1) = d * (d + 1 + 1) + (d + 1 + 1) := by
        ring
      rw [hexp]
      have : (g.nbrs r).length ≤ d + 1 := by rw [← hd]; exact hlen
      linarith

/-- Witness for C10 on a concrete graph: the 2-node graph with a self-loop
at node 0 and no edges out of node 1. -/
theorem c10_bfs_self_loop_witness :
    bfs (GraphU.mk 2 (fun n => if n = 0 then [0, 1] else [])) 0 0 =
      some [0, 0] ∧
    bfs (GraphU.mk 2 (fun n => if n = 0 then [0, 1] else [])) 1 1 =
      some [] := by
  have hw : WfU (GraphU.mk 2 (fun n => if n = 0 then [0, 1] else [])) := by
    intro n
    by_cases hn : n = 0
    · subst hn
      exact ⟨by decide, by decide, fun h => absurd h (by decide)⟩
    · refine ⟨?_, ?_, ?_⟩
      · show (if n = 0 then [0, 1] else []).Nodup
        rw [if_neg hn]
        exact List.nodup_nil
      · intro m hm
        rw [show (GraphU.mk 2 (fun k => if k = 0 then [0, 1] else [])).nbrs n =
          (if n = 0 then [0, 1] else []) from rfl, if_neg hn] at hm
        cases hm
      · intro _
        show (if n = 0 then [0, 1] else []) = []
        rw [if_neg hn]
  exact ⟨(c10_bfs_self_loop _ hw 0 (by norm_num)).1 (by decide),
    (c10_bfs_self_loop _ hw 1 (by norm_num)).2 (by decide)⟩

theorem path_ne_nil {g : GraphU} {a b : ℕ} {p : List ℕ}
    (h : IsPathFrom g a b p) : p ≠ [] := by
  intro hc
  rw [hc] at h
  cases h.1

theorem path_getLastD {g : GraphU} {a b : ℕ} {p : List ℕ}
    (h : IsPathFrom g a b p) : p.getLastD 0 = b := by
  rw [getLastD_eq_getLast?, h.2.1]
  rfl

theorem path_single (g : GraphU) (a : ℕ) : IsPathFrom g a a [a] :=
  ⟨rfl, rfl, List.chain'_singleton a⟩

theorem path_append_edge {g : GraphU} {a b c : ℕ} {p : List ℕ}
    (h : IsPathFrom g a b p) (hc : c ∈ g.nbrs b) :
    IsPathFrom g a c (p ++ [c]) := by
  obtain ⟨h1, h2, h3⟩ := h
  refine ⟨?_, List.getLast?_concat p, ?_⟩
  · rw [head?_append_left (path_ne_nil ⟨h1, h2, h3⟩)]
    exact h1
  · rw [List.chain'_append]
    refine ⟨h3, List.chain'_singleton c, ?_⟩
    intro x hx y hy
    rw [h2, Option.mem_def, Option.some_inj] at hx
    have hy' : c = y := by
      rw [Option.mem_def, show ([c] : List ℕ).head? = some c from rfl,
        Option.some_inj] at hy
      exact hy
    rw [← hx, ← hy']
    exact hc

theorem path_length_ge_one {g : GraphU} {a b : ℕ} {p : List ℕ}
    (h : IsPathFrom g a b p) : 1 ≤ p.length := by
  rcases p with _ | _
  · cases h.1
  · simp

theorem hDist_le {g : GraphU} {a b : ℕ} {p : List ℕ}
    (h : IsPathFrom g a b p) : hDist g a b + 1 ≤ p.length := by
  have h1 := path_length_ge_one h
  have hm : p.length - 1 ∈ {k | ∃ q, IsPathFrom g a b q ∧ q.length = k + 1} :=
    ⟨p, h, by omega⟩
  have := Nat.sInf_le hm
  rw [hDist]
  omega

theorem hDist_spec {g : GraphU} {a b : ℕ} (h : Reachable g a b) :
    ∃ p, IsPathFrom g a b p ∧ p.length = hDist g a b + 1 := by
  obtain ⟨p, hp⟩ := h
  have h1 := path_length_ge_one hp
  have hne : {k | ∃ q, IsPathFrom g a b q ∧ q.length = k + 1}.Nonempty :=
    ⟨p.length - 1, p, hp, by omega⟩
  obtain ⟨q, hq, hql⟩ := Nat.sInf_mem hne
  exact ⟨q, hq, hql⟩

theorem hDist_zero_iff {g : GraphU} {a b : ℕ} (h : Reachable g a b)
    (hd : hDist g a b = 0) : a = b := by
  obtain ⟨p, hp, hl⟩ := hDist_spec h
  rw [hd] at hl
  rcases p with _ | ⟨x, _ | _⟩
  · cases hp.1
  · have ha : x = a := by
      have := hp.1
      rw [List.head?_cons, Option.some_inj] at this
      exact this
    have hb : x = b := by
      have := hp.2.1
      rw [List.getLast?_singleton, Option.some_inj] at this
      exact this
    rw [← ha, ← hb]
  · simp at hl

theorem exists_first_out (hist : Finset ℕ) :
    ∀ (p : List ℕ), (∃ x ∈ p, x ∉ hist) →
      ∃ p₁ x p₂, p = p₁ ++ x :: p₂ ∧ (∀ y ∈ p₁, y ∈ hist) ∧ x ∉ hist := by
  intro p
  induction p with
  | nil => rintro ⟨x, hx, _⟩; cases hx
  | cons a t ih =>
    intro hex
    by_cases ha : a ∈ hist
    · have : ∃ x ∈ t, x ∉ hist := by
        obtain ⟨x, hx, hxh⟩ := hex
        rcases List.mem_cons.mp hx with rfl | hxt
        · exact absurd ha hxh
        · exact ⟨x, hxt, hxh⟩
      obtain ⟨p₁, x, p₂, heq, hall, hx⟩ := ih this
      exact ⟨a :: p₁, x, p₂, by rw [heq]; rfl, by
        intro y hy
        rcases List.mem_cons.mp hy with rfl | hyt
        · exact ha
        · exact hall y hyt, hx⟩
    · exact ⟨[], a, t, rfl, fun y hy => absurd hy (List.not_mem_nil y), ha⟩

theorem sorted_head_min {p : List ℕ} {rest : List (List ℕ)}
    (hs : List.Sorted (· ≤ ·) ((p :: rest).map List.length)) :
    ∀ q ∈ p :: rest, p.length ≤ q.length := by
  intro q hq
  rcases List.mem_cons.mp hq with rfl | hq'
  · exact le_refl _
  · rw [List.map_cons, List.sorted_cons] at hs
    exact hs.1 _ (List.mem_map_of_mem _ hq')

theorem sorted_le_of_all_eq {l : List ℕ} (c : ℕ) (h : ∀ a ∈ l, a = c) :
    List.Sorted (· ≤ ·) l := by
  induction l with
  | nil => exact List.sorted_nil
  | cons a t ih =>
    rw [List.sorted_cons]
    refine ⟨?_, ih fun b hb => h b (List.mem_cons_of_mem _ hb)⟩
    intro b hb
    rw [h a (List.mem_cons_self a t), h b (List.mem_cons_of_mem _ hb)]

theorem getLast?_eq_getLastD {l : List ℕ} (h : l ≠ []) :
    l.getLast? = some (l.getLastD 0) := by
  rw [getLastD_eq_getLast?]
  rcases hl : l.getLast? with _ | z
  · exact absurd (List.getLast?_eq_none.mp hl) h
  · rfl

/-- Decompose a path ending outside `hist` at its first node outside
`hist`: either the root itself is outside `hist`, or some analyzed node `w`
has an edge to the first outside node `x`, with the prefix up to `w` a path
from the root. -/
theorem first_out_of_path {g : GraphU} {root y : ℕ} {sp : List ℕ}
    (hist : Finset ℕ) (hp : IsPathFrom g root y sp) (hy : y ∉ hist) :
    root ∉ hist ∨
    ∃ (w x : ℕ) (p₁ p₂ : List ℕ), sp = p₁ ++ x :: p₂ ∧ x ∉ hist ∧
      w ∈ hist ∧ x ∈ g.nbrs w ∧ IsPathFrom g root w p₁ ∧
      p₁.length + 1 + p₂.length = sp.length ∧ (p₂ = [] → x = y) := by
  obtain ⟨p₁, x, p₂, heq, hall, hx⟩ :=
    exists_first_out hist sp ⟨y, mem_of_getLast? hp.2.1, hy⟩
  rcases List.eq_nil_or_concat p₁ with rfl | ⟨q₁, w, rfl⟩
  · left
    have : x = root := by
      have h1 := hp.1
      rw [heq, List.nil_append, List.head?_cons, Option.some_inj] at h1
      exact h1
    rwa [← this]
  · right
    rw [List.concat_eq_append] at heq hall
    have hne : q₁ ++ [w] ≠ ([] : List ℕ) := by
      intro hc
      exact absurd hc (by simp)
    have hwlast : (q₁ ++ [w]).getLast? = some w := List.getLast?_concat q₁
    have hchain := hp.2.2
    rw [heq, List.chain'_append] at hchain
    obtain ⟨hch1, hch2, hconn⟩ := hchain
    refine ⟨w, x, q₁ ++ [w], p₂, heq, hx, hall w (by simp), ?_, ?_, ?_, ?_⟩
    · exact hconn w (by rw [hwlast]; rfl) x (by rfl)
    · refine ⟨?_, hwlast, hch1⟩
      have h1 := hp.1
      rw [heq, head?_append_left hne] at h1
      exact h1
    · rw [heq]
      simp only [List.length_append, List.length_cons, List.length_singleton]
      omega
    · intro hp2
      have h2 := hp.2.1
      rw [heq, hp2] at h2
      have : ((q₁ ++ [w]) ++ [x]).getLast? = some x := List.getLast?_concat _
      rw [show (q₁ ++ [w]) ++ x :: ([] : List ℕ) = (q₁ ++ [w]) ++ [x] from rfl,
        this, Option.some_inj] at h2
      exact h2

/-- When the front path's endpoint is unanalyzed, its length is exactly one
more than the endpoint's hop distance from the root (the level-order
property of the FIFO frontier). -/
theorem bfs_pop_len {g : GraphU} {root target : ℕ} (hrt : root ≠ target)
    {p : List ℕ} {rest : List (List ℕ)} {hist : Finset ℕ}
    (inv : BfsInv g root target (p :: rest) hist)
    (hc : p.getLastD 0 ∉ hist) :
    p.length = hDist g root (p.getLastD 0) + 1 := by
  obtain ⟨hpp, _⟩ := inv.paths p (List.mem_cons_self p rest)
  have hge := hDist_le hpp
  by_contra hne
  have hgt : hDist g root (p.getLastD 0) + 1 < p.length := by omega
  obtain ⟨sp, hsp, hspl⟩ := hDist_spec ⟨p, hpp⟩
  rcases first_out_of_path hist hsp hc with hroot | hdecomp
  · rcases inv.rootcov with hrh | ⟨q, hq, hql, hq1⟩
    · exact hroot hrh
    · have := sorted_head_min inv.sorted q hq
      omega
  · obtain ⟨w, x, p₁, p₂, heq, hxh, hwh, hxnb, hw1, hlen, _⟩ := hdecomp
    have hxt : x ≠ target := by
      intro hc'
      exact inv.tfree w hwh (hc' ▸ hxnb)
    rcases inv.covered w hwh x hxnb with hc' | hc' | ⟨q, hq, hqlast, hql⟩
    · exact hxt hc'
    · exact hxh hc'
    · have hmin := sorted_head_min inv.sorted q hq
      have hwd := hDist_le hw1
      rw [hspl] at hlen
      omega

/-- When the target is discovered among the unanalyzed neighbors of the
front path's endpoint, the returned path is a shortest root-target path. -/
theorem bfs_return_min {g : GraphU} {root target : ℕ} (hrt : root ≠ target)
    {p : List ℕ} {rest : List (List ℕ)} {hist : Finset ℕ}
    (inv : BfsInv g root target (p :: rest) hist)
    (hc : p.getLastD 0 ∉ hist) (hnb : target ∈ g.nbrs (p.getLastD 0)) :
    IsPathFrom g root target (p ++ [target]) ∧
      (p ++ [target]).length = hDist g root target + 1 := by
  obtain ⟨hpp, _⟩ := inv.paths p (List.mem_cons_self p rest)
  have hpath : IsPathFrom g root target (p ++ [target]) :=
    path_append_edge hpp hnb
  refine ⟨hpath, ?_⟩
  rw [List.length_append, List.length_singleton]
  have hge := hDist_le hpath
  rw [List.length_append, List.length_singleton] at hge
  by_contra hne
  have hgt : hDist g root target < p.length := by omega
  obtain ⟨sp, hsp, hspl⟩ := hDist_spec ⟨_, hpath⟩
  rcases first_out_of_path hist hsp inv.tnotin with hroot | hdecomp
  · rcases inv.rootcov with hrh | ⟨q, hq, hql, hq1⟩
    · exact hroot hrh
    · have hmin := sorted_head_min inv.sorted q hq
      have h0 : hDist g root target = 0 := by omega
      exact hrt (hDist_zero_iff ⟨_, hpath⟩ h0)
  · obtain ⟨w, x, p₁, p₂, heq, hxh, hwh, hxnb, hw1, hlen, hp2⟩ := hdecomp
    have hxt : x ≠ target := by
      intro hc'
      exact inv.tfree w hwh (hc' ▸ hxnb)
    have hp2ne : p₂ ≠ [] := fun hc' => hxt (hp2 hc')
    have hp2len : 1 ≤ p₂.length := by
      rcases p₂ with _ | _
      · exact absurd rfl hp2ne
      · simp
    rcases inv.covered w hwh x hxnb with hc' | hc' | ⟨q, hq, hqlast, hql⟩
    · exact hxt hc'
    · exact hxh hc'
    · have hmin := sorted_head_min inv.sorted q hq
      have hwd := hDist_le hw1
      rw [hspl] at hlen
      omega

/-- An empty queue under the invariant means the target is unreachable. -/
theorem bfs_empty_no_path {g : GraphU} {root target : ℕ} (hrt : root ≠ target)
    {hist : Finset ℕ} (inv : BfsInv g root target [] hist) :
    ¬Reachable g root target := by
  rintro ⟨sp, hsp⟩
  rcases first_out_of_path hist hsp inv.tnotin with hroot | hdecomp
  · rcases inv.rootcov with hrh | ⟨q, hq, _⟩
    · exact hroot hrh
    · cases hq
  · obtain ⟨w, x, _, _, _, hxh, hwh, hxnb, _, _, _⟩ := hdecomp
    rcases inv.covered w hwh x hxnb with hc' | hc' | ⟨q, hq, _⟩
    · exact inv.tfree w hwh (hc' ▸ hxnb)
    · exact hxh hc'
    · cases hq

theorem bfs_inv_skip {g : GraphU} {root target : ℕ} {p : List ℕ}
    {rest : List (List ℕ)} {hist : Finset ℕ}
    (inv : BfsInv g root target (p :: rest) hist)
    (hc : p.getLastD 0 ∈ hist) : BfsInv g root target rest hist := by
  refine ⟨?_, ?_, ?_, ?_, inv.tfree, ?_, inv.tnotin⟩
  · intro q hq
    exact inv.paths q (List.mem_cons_of_mem _ hq)
  · have := inv.sorted
    rw [List.map_cons, List.sorted_cons] at this
    exact this.2
  · intro q1 hq1 q2 hq2
    exact inv.close q1 (List.mem_cons_of_mem _ hq1) q2 (List.mem_cons_of_mem _ hq2)
  · intro x hx nb hnb
    rcases inv.covered x hx nb hnb with h | h | ⟨q, hq, hqlast, hql⟩
    · exact Or.inl h
    · exact Or.inr (Or.inl h)
    · rcases List.mem_cons.mp hq with rfl | hq'
      · exact Or.inr (Or.inl (hqlast ▸ hc))
      · exact Or.inr (Or.inr ⟨q, hq', hqlast, hql⟩)
  · rcases inv.rootcov with h | ⟨q, hq, hqlast, hql⟩
    · exact Or.inl h
    · rcases List.mem_cons.mp hq with rfl | hq'
      · exact Or.inl (hqlast ▸ hc)
      · exact Or.inr ⟨q, hq', hqlast, hql⟩

theorem bfs_inv_expand {g : GraphU} {root target : ℕ} {p : List ℕ}
    {rest : List (List ℕ)} {hist : Finset ℕ} (hrt : root ≠ target)
    (inv : BfsInv g root target (p :: rest) hist)
    (hc : p.getLastD 0 ∉ hist)
    (hnt : target ∉ (g.nbrs (p.getLastD 0)).filter (fun m => decide (m ∉ hist))) :
    BfsInv g root target
      (rest ++ ((g.nbrs (p.getLastD 0)).filter
        (fun m => decide (m ∉ hist))).map fun m => p ++ [m])
      (insert (p.getLastD 0) hist) := by
  set curr := p.getLastD 0 with hcurr
  set adj := (g.nbrs curr).filter (fun m => decide (m ∉ hist)) with hadj
  have hadj_mem : ∀ m, m ∈ adj ↔ (m ∈ g.nbrs curr ∧ m ∉ hist) := by
    intro m
    rw [hadj, List.mem_filter, decide_eq_true_eq]
  obtain ⟨hpp, hptf⟩ := inv.paths p (List.mem_cons_self p rest)
  have hplen : p.length = hDist g root curr + 1 := bfs_pop_len hrt inv hc
  have hcurrp : curr ∈ p :=
    mem_of_getLast? (getLast?_eq_getLastD (path_ne_nil hpp))
  have hct : curr ≠ target := fun h => hptf (h ▸ hcurrp)
  refine ⟨?_, ?_, ?_, ?_, ?_, ?_, ?_⟩
  · intro q hq
    rcases List.mem_append.mp hq with hq' | hq'
    · exact inv.paths q (List.mem_cons_of_mem _ hq')
    · obtain ⟨m, hm, rfl⟩ := List.mem_map.mp hq'
      have hmnb := (hadj_mem m).mp hm
      refine ⟨?_, ?_⟩
      · rw [getLastD_concat]
        exact path_append_edge hpp hmnb.1
      · intro hmem
        rcases List.mem_append.mp hmem with h' | h'
        · exact hptf h'
        · rw [List.mem_singleton] at h'
          exact hnt (h' ▸ hm)
  · rw [List.map_append]
    refine List.pairwise_append.mpr ⟨?_, ?_, ?_⟩
    · have := inv.sorted
      rw [List.map_cons, List.sorted_cons] at this
      exact this.2
    · apply sorted_le_of_all_eq (p.length + 1)
      intro a ha
      obtain ⟨q, hq, rfl⟩ := List.mem_map.mp ha
      obtain ⟨m, _, rfl⟩ := List.mem_map.mp hq
      rw [List.length_append, List.length_singleton]
    · intro a ha b hb
      obtain ⟨q, hq, rfl⟩ := List.mem_map.mp ha
      obtain ⟨q', hq', rfl⟩ := List.mem_map.mp hb
      obtain ⟨m, _, rfl⟩ := List.mem_map.mp hq'
      have := inv.close p (List.mem_cons_self p rest) q (List.mem_cons_of_mem _ hq)
      rw [List.length_append, List.length_singleton]
      omega
  · intro q1 hq1 q2 hq2
    rcases List.mem_append.mp hq1 with h1 | h1 <;>
      rcases List.mem_append.mp hq2 with h2 | h2
    · exact inv.close q1 (List.mem_cons_of_mem _ h1) q2 (List.mem_cons_of_mem _ h2)
    · obtain ⟨m, _, rfl⟩ := List.mem_map.mp h2
      have hmin := sorted_head_min inv.sorted q1 (List.mem_cons_of_mem _ h1)
      rw [List.length_append, List.length_singleton]
      omega
    · obtain ⟨m, _, rfl⟩ := List.mem_map.mp h1
      have := inv.close p (List.mem_cons_self p rest) q2 (List.mem_cons_of_mem _ h2)
      rw [List.length_append, List.length_singleton]
      omega
    · obtain ⟨m, _, rfl⟩ := List.mem_map.mp h1
      obtain ⟨m', _, rfl⟩ := List.mem_map.mp h2
      rw [List.length_append, List.length_singleton,
        List.length_append, List.length_singleton]
      omega
  · intro x hx nb hnb
    rcases Finset.mem_insert.mp hx with rfl | hx'
    · by_cases hnbh : nb ∈ hist
      · exact Or.inr (Or.inl (Finset.mem_insert_of_mem hnbh))
      · have hmadj : nb ∈ adj := (hadj_mem nb).mpr ⟨hnb, hnbh⟩
        refine Or.inr (Or.inr ⟨p ++ [nb], ?_, getLastD_concat p nb 0, ?_⟩)
        · exact List.mem_append_right _ (List.mem_map_of_mem _ hmadj)
        · rw [List.length_append, List.length_singleton]
          omega
    · rcases inv.covered x hx' nb hnb with h | h | ⟨q, hq, hqlast, hql⟩
      · exact Or.inl h
      · exact Or.inr (Or.inl (Finset.mem_insert_of_mem h))
      · rcases List.mem_cons.mp hq with rfl | hq'
        · exact Or.inr (Or.inl (hqlast ▸ Finset.mem_insert_self _ _))
        · exact Or.inr (Or.inr ⟨q, List.mem_append_left _ hq', hqlast, hql⟩)
  · intro x hx
    rcases Finset.mem_insert.mp hx with rfl | hx'
    · intro ht
      exact hnt ((hadj_mem target).mpr ⟨ht, inv.tnotin⟩)
    · exact inv.tfree x hx'
  · rcases inv.rootcov with h | ⟨q, hq, hqlast, hql⟩
    · exact Or.inl (Finset.mem_insert_of_mem h)
    · rcases List.mem_cons.mp hq with rfl | hq'
      · exact Or.inl (hqlast ▸ Finset.mem_insert_self _ _)
      · exact Or.inr ⟨q, List.mem_append_left _ hq', hqlast, hql⟩
  · intro ht
    rcases Finset.mem_insert.mp ht with h | h
    · exact hct h.symm
    · exact inv.tnotin h

theorem bfsRun_correct {g : GraphU} (hw : WfU g) {root target : ℕ}
    (hrt : root ≠ target) :
    ∀ (fuel : ℕ) (queue : List (List ℕ)) (hist : Finset ℕ),
      BfsInv g root target queue hist → bMeasure g queue hist < fuel →
      (Reachable g root target →
        ∃ ans, bfsRun g target fuel queue hist = some ans ∧
          IsPathFrom g root target ans ∧
          ans.length = hDist g root target + 1) ∧
      (¬Reachable g root target →
        bfsRun g target fuel queue hist = some []) := by
  intro fuel
  induction fuel with
  | zero => intro queue hist _ hm; omega
  | succ f ih =>
    intro queue hist inv hm
    rcases queue with _ | ⟨p, rest⟩
    · constructor
      · intro hr
        exact absurd hr (bfs_empty_no_path hrt inv)
      · intro _
        rfl
    rw [bfsRun]
    by_cases hc : p.getLastD 0 ∈ hist
    · rw [if_pos hc]
      have := bMeasure_skip g p rest hist
      exact ih rest hist (bfs_inv_skip inv hc) (by omega)
    rw [if_neg hc]
    by_cases ht : target ∈ (g.nbrs (p.getLastD 0)).filter
        (fun m => decide (m ∉ hist))
    · rw [if_pos ht]
      have hnb : target ∈ g.nbrs (p.getLastD 0) := (List.mem_filter.mp ht).1
      obtain ⟨hpath, hlen⟩ := bfs_return_min hrt inv hc hnb
      constructor
      · intro _
        exact ⟨p ++ [target], rfl, hpath, hlen⟩
      · intro hnr
        exact absurd ⟨_, hpath⟩ hnr
    · rw [if_neg ht]
      have hm' := bMeasure_expand hw p rest hist hc
        (((g.nbrs (p.getLastD 0)).filter
          (fun m => decide (m ∉ hist))).map fun m => p ++ [m])
        (by rw [List.length_map])
      exact ih _ _ (bfs_inv_expand hrt inv hc ht) (by omega)

/-- `bfs` on any well-formed graph: for distinct `root` and `target`, it
returns a shortest path when one exists and the empty list otherwise. -/
theorem bfs_correct (g : GraphU) (hw : WfU g) (root target : ℕ)
    (hrt : root ≠ target) :
    (Reachable g root target →
      ∃ ans, bfs g root target = some ans ∧ IsPathFrom g root target ans ∧
        ∀ q, IsPathFrom g root target q → ans.length ≤ q.length) ∧
    (¬Reachable g root target → bfs g root target = some []) := by
  have hinv : BfsInv g root target [[root]] ∅ := by
    refine ⟨?_, ?_, ?_, ?_, ?_, ?_, Finset.not_mem_empty target⟩
    · intro q hq
      rw [List.mem_singleton] at hq
      subst hq
      exact ⟨path_single g root, by
        rw [List.mem_singleton]
        exact fun h => hrt h.symm⟩
    · simp
    · intro q1 hq1 q2 hq2
      rw [List.mem_singleton] at hq1 hq2
      subst hq1
      subst hq2
      omega
    · intro x hx
      cases hx
    · intro x hx
      cases hx
    · exact Or.inr ⟨[root], List.mem_singleton_self _, rfl, rfl⟩
  have hmeas : bMeasure g [[root]] ∅ < bfsFuel g := by
    rw [bMeasure, bfsFuel, Finset.sdiff_empty, Finset.card_range]
    simp
  obtain ⟨h1, h2⟩ := bfsRun_correct hw hrt (bfsFuel g) [[root]] ∅ hinv hmeas
  constructor
  · intro hr
    obtain ⟨ans, ha, hp, hl⟩ := h1 hr
    refine ⟨ans, ha, hp, ?_⟩
    intro q hq
    have := hDist_le hq
    omega
  · exact h2

theorem foldU_dims {N : ℤ} (edges : List (List ℤ))
    (st st' : List (List ℤ) × List (Finset ℤ)) (hd : RawDims N.toNat st)
    (h : List.foldlM (stepU N) st edges = some st') : RawDims N.toNat st' := by
  induction edges generalizing st with
  | nil =>
    rw [List.foldlM_nil] at h
    exact Option.some_inj.mp h ▸ hd
  | cons e rest ih =>
    rw [show List.foldlM (stepU N) st (e :: rest) =
        (stepU N st e).bind (fun st1 => List.foldlM (stepU N) st1 rest) from by
      rw [List.foldlM_cons]; rfl] at h
    rcases he : stepU N st e with _ | st1 <;> rw [he] at h
    · cases h
    rw [Option.some_bind] at h
    exact ih st1 (stepU_dims he hd) h

theorem constructU_dims {N : ℤ} {edges : List (List ℤ)} {g : GraphRawU}
    (hg : constructU N edges = some g) :
    g.matrix.length = N.toNat ∧ (∀ row ∈ g.matrix, row.length = N.toNat) ∧
      g.neighbors.length = N.toNat := by
  rw [constructU] at hg
  rcases hf : List.foldlM (stepU N)
      (List.replicate N.toNat (List.replicate N.toNat 0),
       List.replicate N.toNat ∅) edges with _ | st' <;> rw [hf] at hg
  · cases hg
  rw [Option.map_some'] at hg
  have hd := foldU_dims edges _ st' (rawDims_init _ _) hf
  rw [← Option.some_inj.mp hg]
  exact hd

theorem constructU_N {N : ℤ} {edges : List (List ℤ)} {g : GraphRawU}
    (hg : constructU N edges = some g) : g.N = N := by
  rw [constructU] at hg
  rcases hf : List.foldlM (stepU N)
      (List.replicate N.toNat (List.replicate N.toNat 0),
       List.replicate N.toNat ∅) edges with _ | st' <;> rw [hf] at hg
  · cases hg
  rw [Option.map_some'] at hg
  rw [← Option.some_inj.mp hg]

theorem constructU_wf {N : ℤ} {edges : List (List ℤ)} {g : GraphRawU}
    (hg : constructU N edges = some g) : WfU g.toU := by
  obtain ⟨_, _, hnl⟩ := constructU_dims hg
  have hNN : g.toU.N = N.toNat := by
    show g.N.toNat = N.toNat
    rw [constructU_N hg]
  intro n
  have hnb : g.toU.nbrs n = ((g.neighbors.getD n ∅).sort (· ≤ ·)).map Int.toNat :=
    rfl
  rw [hnb, hNN]
  by_cases hn : n < N.toNat
  · have hsync := c6_neighbors_matrix_roundtrip.1 N edges g hg n hn
    have hmem : ∀ x ∈ g.neighbors.getD n ∅, 0 ≤ x ∧ x < N := by
      intro x hx
      obtain ⟨h1, h2, _⟩ := (hsync x).mp hx
      exact ⟨h1, h2⟩
    refine ⟨?_, ?_, ?_⟩
    · apply List.Nodup.map_on
      · intro x hx y hy hxy
        rw [Finset.mem_sort] at hx hy
        have hx' := hmem x hx
        have hy' := hmem y hy
        omega
      · exact (g.neighbors.getD n ∅).sort_nodup (· ≤ ·)
    · intro m hm
      obtain ⟨x, hx, rfl⟩ := List.mem_map.mp hm
      rw [Finset.mem_sort] at hx
      have := hmem x hx
      omega
    · intro hc
      omega
  · have hempty : g.neighbors.getD n ∅ = ∅ :=
      List.getD_eq_default _ _ (by omega)
    rw [hempty, Finset.sort_empty, List.map_nil]
    refine ⟨List.nodup_nil, ?_, fun _ => rfl⟩
    intro m hm
    cases hm

/-- Claim C1: for every graph built by the unweighted edge-list builder and
every pair of distinct in-range nodes, `bfs(root, target)` returns a node
sequence starting at `root`, ending at `target`, following edges, with the
minimum number of edges among all root-to-target paths; when no path
exists it returns the empty list. -/
theorem c1_bfs_shortest_path (N : ℤ) (edges : List (List ℤ)) (g : GraphRawU)
    (hg : constructU N edges = some g) (root target : ℕ)
    (hroot : root < g.toU.N) (htarget : target < g.toU.N)
    (hrt : root ≠ target) :
    (Reachable g.toU root target →
      ∃ ans, bfs g.toU root target = some ans ∧
        IsPathFrom g.toU root target ans ∧
        ∀ q, IsPathFrom g.toU root target q → ans.length ≤ q.length) ∧
    (¬Reachable g.toU root target → bfs g.toU root target = some []) :=
  bfs_correct g.toU (constructU_wf hg) root target hrt

/-- Witness for C1: the 3-node path graph built from edges `(1,2), (2,3)`,
queried between nodes 0 and 2. -/
theorem c1_bfs_shortest_path_witness :
    (Reachable (GraphRawU.toU
        (GraphRawU.mk 3 [[0, 1, 0], [1, 0, 1], [0, 1, 0]]
          [{1}, {2, 0}, {1}])) 0 2 →
      ∃ ans, bfs (GraphRawU.toU (GraphRawU.mk 3 [[0, 1, 0], [1, 0, 1], [0, 1, 0]]
          [{1}, {2, 0}, {1}])) 0 2 = some ans ∧
        IsPathFrom (GraphRawU.toU (GraphRawU.mk 3 [[0, 1, 0], [1, 0, 1], [0, 1, 0]]
          [{1}, {2, 0}, {1}])) 0 2 ans ∧
        ∀ q, IsPathFrom (GraphRawU.toU (GraphRawU.mk 3 [[0, 1, 0], [1, 0, 1], [0, 1, 0]]
          [{1}, {2, 0}, {1}])) 0 2 q → ans.length ≤ q.length) ∧
    (¬Reachable (GraphRawU.toU (GraphRawU.mk 3 [[0, 1, 0], [1, 0, 1], [0, 1, 0]]
        [{1}, {2, 0}, {1}])) 0 2 →
      bfs (GraphRawU.toU (GraphRawU.mk 3 [[0, 1, 0], [1, 0, 1], [0, 1, 0]]
        [{1}, {2, 0}, {1}])) 0 2 = some []) :=
  c1_bfs_shortest_path 3 [[1, 2], [2, 3]]
    (GraphRawU.mk 3 [[0, 1, 0], [1, 0, 1], [0, 1, 0]] [{1}, {2, 0}, {1}])
    rfl 0 2 (by decide) (by decide) (by decide)

theorem head_cons_of_head? {q : List ℕ} {a : ℕ} (h : q.head? = some a) :
    q = a :: q.tail := by
  rcases q with _ | ⟨x, t⟩
  · cases h
  · rw [List.head?_cons, Option.some_inj] at h
    rw [h]
    rfl

theorem path_glue {g : GraphU} {a b c : ℕ} {q₁ q₂ : List ℕ}
    (h1 : IsPathFrom g a b q₁) (h2 : IsPathFrom g b c q₂) :
    IsPathFrom g a c (q₁ ++ q₂.tail) := by
  have hq2 : q₂ = b :: q₂.tail := head_cons_of_head? h2.1
  by_cases htne : q₂.tail = []
  · have hbc : b = c := by
      have h4 := h2.2.1
      rw [hq2, htne, List.getLast?_singleton, Option.some_inj] at h4
      exact h4
    rw [htne, List.append_nil, ← hbc]
    exact h1
  · have hchain2 : List.Chain' (fun x y => y ∈ g.nbrs x) (b :: q₂.tail) := by
      rw [← hq2]
      exact h2.2.2
    refine ⟨?_, ?_, ?_⟩
    · rw [head?_append_left (path_ne_nil h1)]
      exact h1.1
    · rw [List.getLast?_append_of_ne_nil _ htne]
      have h4 := h2.2.1
      rw [hq2, show (b :: q₂.tail) = [b] ++ q₂.tail from rfl,
        List.getLast?_append_of_ne_nil _ htne] at h4
      exact h4
    · rw [List.chain'_append]
      refine ⟨h1.2.2, hchain2.tail, ?_⟩
      intro x hx y' hy'
      rw [h1.2.1, Option.mem_def, Option.some_inj] at hx
      have := (List.chain'_cons'.mp hchain2).1 y' hy'
      rw [← hx]
      exact this

theorem reachable_trans {g : GraphU} {a b c : ℕ}
    (h1 : Reachable g a b) (h2 : Reachable g b c) : Reachable g a c := by
  obtain ⟨q₁, h1⟩ := h1
  obtain ⟨q₂, h2⟩ := h2
  exact ⟨q₁ ++ q₂.tail, path_glue h1 h2⟩

theorem iMeasure_expand {g : GraphU} (hw : WfU g) (p : List ℕ)
    (rest : List (List ℕ))
    (hnp : ∀ m ∈ g.nbrs (p.getLastD 0), m ∉ p) :
    iMeasure g ((((g.nbrs (p.getLastD 0)).map fun m => p ++ [m]).reverse) ++ rest)
      < iMeasure g (p :: rest) := by
  set curr := p.getLastD 0 with hcurr
  rw [iMeasure, iMeasure, List.map_append, List.sum_append, List.map_cons,
    List.sum_cons, List.map_reverse, List.sum_reverse, List.map_map]
  apply Nat.add_lt_add_right
  set c := (p.toFinset ∩ Finset.range g.N).card with hc
  rcases hnil : g.nbrs curr with _ | ⟨m0, ms⟩
  · rw [List.map_nil, List.sum_nil]
    exact Nat.pos_pow_of_pos _ (by omega)
  · have hm0 : m0 ∈ g.nbrs curr := by rw [hnil]; exact List.mem_cons_self _ _
    have hm0N : m0 < g.N := (hw curr).2.1 m0 hm0
    have hm0p : m0 ∉ p := hnp m0 hm0
    have hcN : c < g.N := by
      have hss : p.toFinset ∩ Finset.range g.N ⊂ Finset.range g.N := by
        refine ⟨Finset.inter_subset_right, ?_⟩
        intro hsub
        have := hsub (Finset.mem_range.mpr hm0N)
        rw [Finset.mem_inter, List.mem_toFinset] at this
        exact hm0p this.1
      have := Finset.card_lt_card hss
      rwa [Finset.card_range] at this
    have hterm : ∀ m ∈ g.nbrs curr,
        ((fun q => (g.N + 1) ^ (g.N - (q.toFinset ∩ Finset.range g.N).card)) ∘
          fun m => p ++ [m]) m = (g.N + 1) ^ (g.N - (c + 1)) := by
      intro m hm
      have hmN : m < g.N := (hw curr).2.1 m hm
      have hmp : m ∉ p := hnp m hm
      have hset : (p ++ [m]).toFinset ∩ Finset.range g.N =
          insert m (p.toFinset ∩ Finset.range g.N) := by
        ext x
        simp only [List.toFinset_append, Finset.mem_inter, Finset.mem_union,
          Finset.mem_insert, List.mem_toFinset, List.toFinset_cons,
          List.toFinset_nil, insert_emptyc_eq, Finset.mem_singleton,
          Finset.mem_range]
        constructor
        · rintro ⟨hx | rfl, hr⟩
          · exact Or.inr ⟨hx, hr⟩
          · exact Or.inl rfl
        · rintro (rfl | ⟨hx, hr⟩)
          · exact ⟨Or.inr rfl, hmN⟩
          · exact ⟨Or.inl hx, hr⟩
      have hcard : ((p ++ [m]).toFinset ∩ Finset.range g.N).card = c + 1 := by
        rw [hset, Finset.card_insert_of_not_mem]
        intro hmem
        rw [Finset.mem_inter, List.mem_toFinset] at hmem
        exact hmp hmem.1
      show (g.N + 1) ^ (g.N - ((p ++ [m]).toFinset ∩ Finset.range g.N).card) = _
      rw [hcard]
    have hsum : ((g.nbrs curr).map
        ((fun q => (g.N + 1) ^ (g.N - (q.toFinset ∩ Finset.range g.N).card)) ∘
          fun m => p ++ [m])).sum ≤
        (g.nbrs curr).length * (g.N + 1) ^ (g.N - (c + 1)) := by
      have : ∀ x ∈ (g.nbrs curr).map
          ((fun q => (g.N + 1) ^ (g.N - (q.toFinset ∩ Finset.range g.N).card)) ∘
            fun m => p ++ [m]), x ≤ (g.N + 1) ^ (g.N - (c + 1)) := by
        intro x hx
        obtain ⟨m, hm, rfl⟩ := List.mem_map.mp hx
        rw [hterm m hm]
      calc ((g.nbrs curr).map _).sum
          ≤ ((g.nbrs curr).map _).length • (g.N + 1) ^ (g.N - (c + 1)) :=
            List.sum_le_card_nsmul _ _ this
        _ = (g.nbrs curr).length * (g.N + 1) ^ (g.N - (c + 1)) := by
            rw [List.length_map, smul_eq_mul]
    have hlen := nbrs_length_le hw curr
    have hpow : (g.N + 1) ^ (g.N - c) =
        (g.N + 1) * (g.N + 1) ^ (g.N - (c + 1)) := by
      have : g.N - c = (g.N - (c + 1)) + 1 := by omega
      rw [this, pow_succ, mul_comm]
    rw [← hnil]
    calc ((g.nbrs curr).map _).sum
        ≤ (g.nbrs curr).length * (g.N + 1) ^ (g.N - (c + 1)) := hsum
      _ ≤ g.N * (g.N + 1) ^ (g.N - (c + 1)) :=
          Nat.mul_le_mul_right _ hlen
      _ < (g.N + 1) * (g.N + 1) ^ (g.N - (c + 1)) := by
          have hpos : 0 < (g.N + 1) ^ (g.N - (c + 1)) :=
            Nat.pos_pow_of_pos _ (by omega)
          exact (Nat.mul_lt_mul_right hpos).mpr (by omega)
      _ = (g.N + 1) ^ (g.N - c) := hpow.symm

theorem any_mem_false {p : List ℕ} {l : List ℕ}
    (h : ¬(l.any fun m => decide (m ∈ p)) = true) : ∀ m ∈ l, m ∉ p := by
  intro m hm hmp
  exact h (List.any_eq_true.mpr ⟨m, hm, decide_eq_true hmp⟩)

theorem islandRun_total {g : GraphU} (hw : WfU g) :
    ∀ (fuel : ℕ) (stack : List (List ℕ)) (hist : Finset ℕ),
      iMeasure g stack < fuel → (islandRun g fuel stack hist).isSome := by
  intro fuel
  induction fuel with
  | zero => intro stack hist h; omega
  | succ f ih =>
    intro stack hist hm
    rcases stack with _ | ⟨p, rest⟩
    · rfl
    rw [islandRun]
    by_cases ha : (g.nbrs (p.getLastD 0)).any fun m => decide (m ∈ p)
    · rw [if_pos ha]
      rfl
    · rw [if_neg ha]
      have hd := iMeasure_expand hw p rest (any_mem_false ha)
      exact ih _ _ (by omega)

theorem island_stack_step {g : GraphU} {root : ℕ} {p : List ℕ}
    {rest : List (List ℕ)}
    (hstk : ∀ q ∈ p :: rest, IsPathFrom g root (q.getLastD 0) q) :
    ∀ q ∈ (((g.nbrs (p.getLastD 0)).map fun m => p ++ [m]).reverse ++ rest),
      IsPathFrom g root (q.getLastD 0) q := by
  intro q hq
  rcases List.mem_append.mp hq with hq' | hq'
  · rw [List.mem_reverse] at hq'
    obtain ⟨m, hm, rfl⟩ := List.mem_map.mp hq'
    rw [getLastD_concat]
    exact path_append_edge (hstk p (List.mem_cons_self p rest)) hm
  · exact hstk q (List.mem_cons_of_mem _ hq')

theorem islandRun_sound {g : GraphU} {root : ℕ} :
    ∀ (fuel : ℕ) (stack : List (List ℕ)) (hist h' : Finset ℕ),
      (∀ q ∈ stack, IsPathFrom g root (q.getLastD 0) q) →
      islandRun g fuel stack hist = some (true, h') →
      CycleReachable g root := by
  intro fuel
  induction fuel with
  | zero => intro stack hist h' _ h; cases h
  | succ f ih =>
    intro stack hist h' hstk h
    rcases stack with _ | ⟨p, rest⟩
    · rw [islandRun, Option.some_inj] at h
      cases h
    rw [islandRun] at h
    by_cases ha : (g.nbrs (p.getLastD 0)).any fun m => decide (m ∈ p)
    · -- a neighbor of the endpoint lies on the path: extract the cycle
      obtain ⟨m, hm, hmp⟩ := List.any_eq_true.mp ha
      rw [decide_eq_true_eq] at hmp
      have hpp := hstk p (List.mem_cons_self p rest)
      obtain ⟨p₁, p₂, hsplit⟩ := List.append_of_mem hmp
      subst hsplit
      have hp2ne : (m :: p₂ : List ℕ) ≠ [] := List.cons_ne_nil m p₂
      have hlast2 : (m :: p₂).getLast? =
          some ((p₁ ++ m :: p₂).getLastD 0) := by
        have h4 := hpp.2.1
        rw [List.getLast?_append_of_ne_nil _ hp2ne] at h4
        exact h4
      have hchain2 : List.Chain' (fun x y => y ∈ g.nbrs x) (m :: p₂) := by
        have h4 := hpp.2.2
        rw [List.chain'_append] at h4
        exact h4.2.1
      have hpath2 : IsPathFrom g m ((p₁ ++ m :: p₂).getLastD 0) (m :: p₂) :=
        ⟨List.head?_cons, hlast2, hchain2⟩
      have hcyc : CycleAt g m := by
        refine ⟨(m :: p₂) ++ [m], path_append_edge hpath2 hm, ?_⟩
        rw [List.length_append, List.length_cons, List.length_singleton]
        omega
      have hreach : Reachable g root m := by
        rcases List.eq_nil_or_concat p₁ with rfl | ⟨q₁, w, rfl⟩
        · have h5 : m = root := by
            have h4 := hpp.1
            rw [List.nil_append, List.head?_cons, Option.some_inj] at h4
            exact h4
          rw [h5]
          exact ⟨[root], path_single g root⟩
        · refine ⟨(q₁ ++ [w]) ++ [m], ⟨?_, List.getLast?_concat _, ?_⟩⟩
          · rw [head?_append_left (by simp : q₁ ++ [w] ≠ ([] : List ℕ))]
            have h4 := hpp.1
            rw [List.concat_eq_append,
              head?_append_left (by simp : q₁ ++ [w] ≠ ([] : List ℕ))] at h4
            exact h4
          · have h4 := hpp.2.2
            rw [List.concat_eq_append, show q₁ ++ [w] ++ m :: p₂ =
              ((q₁ ++ [w]) ++ [m]) ++ p₂ by simp, List.chain'_append] at h4
            exact h4.1
      exact ⟨m, hreach, hcyc⟩
    · rw [if_neg ha] at h
      exact ih _ _ _ (island_stack_step hstk) h

theorem islandRun_complete {g : GraphU} (hw : WfU g) :
    ∀ (fuel : ℕ) (stack : List (List ℕ)) (hist : Finset ℕ),
      iMeasure g stack < fuel →
      (∀ q ∈ stack, q.Nodup ∧ q ≠ []) →
      (∃ q ∈ stack, Pumpable g q) →
      ∃ h', islandRun g fuel stack hist = some (true, h') := by
  intro fuel
  induction fuel with
  | zero => intro stack hist hm; omega
  | succ f ih =>
    intro stack hist hm hnd hpump
    rcases stack with _ | ⟨p, rest⟩
    · obtain ⟨q, hq, _⟩ := hpump
      cases hq
    rw [islandRun]
    by_cases ha : (g.nbrs (p.getLastD 0)).any fun m => decide (m ∈ p)
    · rw [if_pos ha]
      exact ⟨_, rfl⟩
    rw [if_neg ha]
    have hnp := any_mem_false ha
    have hd := iMeasure_expand hw p rest hnp
    have hnd' : ∀ q ∈ (((g.nbrs (p.getLastD 0)).map fun m => p ++ [m]).reverse
        ++ rest), q.Nodup ∧ q ≠ [] := by
      intro q hq
      rcases List.mem_append.mp hq with hq' | hq'
      · rw [List.mem_reverse] at hq'
        obtain ⟨m, hm, rfl⟩ := List.mem_map.mp hq'
        constructor
        · rw [List.nodup_append]
          exact ⟨(hnd p (List.mem_cons_self p rest)).1, List.nodup_singleton m,
            by
              intro a hap ham
              rw [List.mem_singleton] at ham
              exact hnp m hm (ham ▸ hap)⟩
        · simp
      · exact hnd q (List.mem_cons_of_mem _ hq')
    obtain ⟨q, hq, hqp⟩ := hpump
    rcases List.mem_cons.mp hq with rfl | hq'
    · -- the pumpable path is the popped one: its first pump step is pushed
      obtain ⟨w, hchain, hnodup⟩ := hqp
      rcases w with _ | ⟨m, w'⟩
      · rw [List.append_nil] at hchain hnodup
        exact absurd (hnd q (List.mem_cons_self q rest)).1 hnodup
      have hqne : q ≠ [] := (hnd q (List.mem_cons_self q rest)).2
      have hmnb : m ∈ g.nbrs (q.getLastD 0) := by
        rw [List.chain'_append] at hchain
        exact hchain.2.2 _ (by
          rw [Option.mem_def]
          exact getLast?_eq_getLastD hqne) m rfl
      apply ih _ _ (by omega) hnd'
      refine ⟨q ++ [m], ?_, ⟨w', ?_, ?_⟩⟩
      · apply List.mem_append_left
        rw [List.mem_reverse]
        exact List.mem_map_of_mem _ hmnb
      · rw [show (q ++ [m]) ++ w' = q ++ m :: w' by simp]
        exact hchain
      · rw [show (q ++ [m]) ++ w' = q ++ m :: w' by simp]
        exact hnodup
    · apply ih _ _ (by omega) hnd'
      exact ⟨q, List.mem_append_right _ hq', hqp⟩

theorem islandRun_false_conn {g : GraphU} {root : ℕ} :
    ∀ (fuel : ℕ) (stack : List (List ℕ)) (hist conn : Finset ℕ),
      (∀ q ∈ stack, IsPathFrom g root (q.getLastD 0) q) →
      (∀ x ∈ hist, Reachable g root x) →
      islandRun g fuel stack hist = some (false, conn) →
      ∀ x ∈ conn, Reachable g root x := by
  intro fuel
  induction fuel with
  | zero => intro stack hist conn _ _ h; cases h
  | succ f ih =>
    intro stack hist conn hstk hhist h
    rcases stack with _ | ⟨p, rest⟩
    · rw [islandRun, Option.some_inj] at h
      rw [← (Prod.mk.injEq _ _ _ _).mp h |>.2]
      exact hhist
    rw [islandRun] at h
    by_cases ha : (g.nbrs (p.getLastD 0)).any fun m => decide (m ∈ p)
    · rw [if_pos ha, Option.some_inj] at h
      cases (Prod.mk.injEq _ _ _ _).mp h |>.1
    · rw [if_neg ha] at h
      refine ih _ _ _ (island_stack_step hstk) ?_ h
      intro x hx
      rcases Finset.mem_insert.mp hx with rfl | hx'
      · exact ⟨p, hstk p (List.mem_cons_self p rest)⟩
      · exact hhist x hx'

theorem iMeasure_single_lt (g : GraphU) (root : ℕ) :
    iMeasure g [[root]] < islandFuel g := by
  unfold iMeasure islandFuel
  simp only [List.map_cons, List.map_nil, List.sum_cons, List.sum_nil,
    add_zero]
  have h : (g.N + 1) ^ (g.N - (([root].toFinset ∩ Finset.range g.N).card)) ≤
      (g.N + 1) ^ g.N :=
    Nat.pow_le_pow_right (by omega) (Nat.sub_le _ _)
  omega

theorem islandHasCycle_isSome {g : GraphU} (hw : WfU g) (root : ℕ) :
    (islandHasCycle g root).isSome :=
  islandRun_total hw _ _ _ (iMeasure_single_lt g root)

theorem pumpable_single {g : GraphU} {root : ℕ} (h : CycleReachable g root) :
    Pumpable g [root] := by
  obtain ⟨v, ⟨q, hq⟩, ⟨c, hc, hlen⟩⟩ := h
  have hwalk : IsPathFrom g root v (q ++ c.tail) := path_glue hq hc
  have hrw : ([root] : List ℕ) ++ (q ++ c.tail).tail = q ++ c.tail := by
    rw [show ([root] : List ℕ) ++ (q ++ c.tail).tail =
      root :: (q ++ c.tail).tail from rfl, ← head_cons_of_head? hwalk.1]
  refine ⟨(q ++ c.tail).tail, ?_, ?_⟩
  · rw [hrw]
    exact hwalk.2.2
  · rw [hrw]
    intro hnd
    rw [List.nodup_append] at hnd
    have hvq : v ∈ q := mem_of_getLast? hq.2.1
    have hctne : c.tail ≠ [] := by
      intro h0
      have hc2 : c = v :: c.tail := head_cons_of_head? hc.1
      rw [hc2, h0] at hlen
      simp at hlen
    have hvct : v ∈ c.tail := by
      have h4 := hc.2.1
      rw [head_cons_of_head? hc.1, show (v :: c.tail) = [v] ++ c.tail from
        rfl, List.getLast?_append_of_ne_nil _ hctne] at h4
      exact mem_of_getLast? h4
    exact hnd.2.2 hvq hvct

theorem islandHasCycle_true_iff {g : GraphU} (hw : WfU g) (root : ℕ) :
    (∃ h', islandHasCycle g root = some (true, h')) ↔
      CycleReachable g root := by
  constructor
  · rintro ⟨h', h⟩
    refine islandRun_sound _ _ _ _ ?_ h
    intro q hq
    rw [List.mem_singleton] at hq
    subst hq
    exact path_single g root
  · intro hcr
    refine islandRun_complete hw _ _ _ (iMeasure_single_lt g root) ?_
      ⟨[root], List.mem_singleton_self _, pumpable_single hcr⟩
    intro q hq
    rw [List.mem_singleton] at hq
    subst hq
    exact ⟨List.nodup_singleton root, List.cons_ne_nil root []⟩

theorem islandHasCycle_false {g : GraphU} (hw : WfU g) (root : ℕ)
    (conn : Finset ℕ) (h : islandHasCycle g root = some (false, conn)) :
    ¬CycleReachable g root ∧ ∀ x ∈ conn, Reachable g root x := by
  constructor
  · intro hcr
    obtain ⟨h', htrue⟩ := (islandHasCycle_true_iff hw root).mpr hcr
    rw [h] at htrue
    simp at htrue
  · refine islandRun_false_conn _ _ _ _ ?_ ?_ h
    · intro q hq
      rw [List.mem_singleton] at hq
      subst hq
      exact path_single g root
    · intro x hx
      exact absurd hx (Finset.not_mem_empty x)

theorem hasCycleLoop_correct {g : GraphU} (hw : WfU g) :
    ∀ (nodes : List ℕ) (visited : Finset ℕ),
      (∀ x ∈ visited, ¬CycleReachable g x) →
      ((hasCycleLoop g nodes visited = some true ↔
          ∃ n ∈ nodes, CycleReachable g n) ∧
       (hasCycleLoop g nodes visited = some false ↔
          ∀ n ∈ nodes, ¬CycleReachable g n)) := by
  intro nodes
  induction nodes with
  | nil =>
    intro visited hv
    constructor
    · simp [hasCycleLoop]
    · simp [hasCycleLoop]
  | cons n rest ih =>
    intro visited hv
    by_cases hn : n ∈ visited
    · rw [show hasCycleLoop g (n :: rest) visited =
        hasCycleLoop g rest visited from by rw [hasCycleLoop, if_pos hn]]
      obtain ⟨ih1, ih2⟩ := ih visited hv
      constructor
      · rw [ih1]
        constructor
        · rintro ⟨m, hm, hcr⟩
          exact ⟨m, List.mem_cons_of_mem _ hm, hcr⟩
        · rintro ⟨m, hm, hcr⟩
          rcases List.mem_cons.mp hm with rfl | hm'
          · exact absurd hcr (hv m hn)
          · exact ⟨m, hm', hcr⟩
      · rw [ih2]
        constructor
        · intro h m hm
          rcases List.mem_cons.mp hm with rfl | hm'
          · exact hv m hn
          · exact h m hm'
        · intro h m hm
          exact h m (List.mem_cons_of_mem _ hm)
    · have hs := islandHasCycle_isSome hw n
      rcases hres : islandHasCycle g n with _ | ⟨b, conn⟩
      · rw [hres] at hs
        cases hs
      cases b with
      | true =>
        have heq : hasCycleLoop g (n :: rest) visited = some true := by
          rw [hasCycleLoop, if_neg hn, hres]
        have hcr : CycleReachable g n :=
          (islandHasCycle_true_iff hw n).mp ⟨conn, hres⟩
        constructor
        · rw [heq]
          constructor
          · intro _
            exact ⟨n, List.mem_cons_self n rest, hcr⟩
          · intro _
            rfl
        · rw [heq]
          constructor
          · intro h0
            exact absurd h0 (by simp)
          · intro h0
            exact absurd hcr (h0 n (List.mem_cons_self n rest))
      | false =>
        have heq : hasCycleLoop g (n :: rest) visited =
            hasCycleLoop g rest (visited ∪ conn) := by
          rw [hasCycleLoop, if_neg hn, hres]
        obtain ⟨hncr, hconn⟩ := islandHasCycle_false hw n conn hres
        have hv' : ∀ x ∈ visited ∪ conn, ¬CycleReachable g x := by
          intro x hx
          rcases Finset.mem_union.mp hx with hx' | hx'
          · exact hv x hx'
          · intro hcx
            obtain ⟨v, hxv, hcv⟩ := hcx
            exact hncr ⟨v, reachable_trans (hconn x hx') hxv, hcv⟩
        obtain ⟨ih1, ih2⟩ := ih _ hv'
        rw [heq]
        constructor
        · rw [ih1]
          constructor
          · rintro ⟨m, hm, hcr⟩
            exact ⟨m, List.mem_cons_of_mem _ hm, hcr⟩
          · rintro ⟨m, hm, hcr⟩
            rcases List.mem_cons.mp hm with rfl | hm'
            · exact absurd hcr hncr
            · exact ⟨m, hm', hcr⟩
        · rw [ih2]
          constructor
          · intro h m hm
            rcases List.mem_cons.mp hm with rfl | hm'
            · exact hncr
            · exact h m hm'
          · intro h m hm
            exact h m (List.mem_cons_of_mem _ hm)

theorem hasCycleProp_iff_range {g : GraphU} (hw : WfU g) :
    HasCycleProp g ↔ ∃ n ∈ List.range g.N, CycleReachable g n := by
  constructor
  · rintro ⟨v, p, hp, hlen⟩
    have hvN : v < g.N := by
      rcases p with _ | ⟨a, _ | ⟨b, t⟩⟩
      · exact absurd hp.1 (by simp)
      · simp at hlen
      · have ha : a = v := by simpa using hp.1
        have hb : b ∈ g.nbrs a := (List.chain'_cons.mp hp.2.2).1
        by_contra hN
        push_neg at hN
        have hnil := (hw v).2.2 hN
        rw [ha, hnil] at hb
        cases hb
    exact ⟨v, List.mem_range.mpr hvN,
      v, ⟨[v], path_single g v⟩, ⟨p, hp, hlen⟩⟩
  · rintro ⟨n, _, v, _, hcv⟩
    exact ⟨v, hcv⟩

/-- **C3** (corrected).  `has_cycle` decides the existence of a *directed*
cycle: it returns `true` iff some node has a directed walk of at least one
edge back to itself, and `false` iff no such walk exists.  The claim's
assertion that undirected inputs supplied as mirrored arc pairs are
reported acyclic whenever the undirected graph is a forest is false: the
mirrored pair itself forms a directed 2-cycle (see the counterexample). -/
theorem c3_has_cycle_directed (g : GraphU) (hw : WfU g) :
    (hasCycle g = some true ↔ HasCycleProp g) ∧
    (hasCycle g = some false ↔ ¬HasCycleProp g) := by
  obtain ⟨h1, h2⟩ := hasCycleLoop_correct hw (List.range g.N) ∅
    (fun x hx => absurd hx (Finset.not_mem_empty x))
  rw [hasCycle]
  constructor
  · rw [h1, hasCycleProp_iff_range hw]
  · rw [h2, hasCycleProp_iff_range hw]
    constructor
    · rintro h ⟨n, hn, hcr⟩
      exact h n hn hcr
    · intro h n hn hcr
      exact h ⟨n, hn, hcr⟩

/-- **C3** counterexample: a single undirected edge supplied as the
mirrored arc pair `0 → 1`, `1 → 0` — a tree, hence acyclic as an
undirected graph — is reported cyclic by `has_cycle`, because the mirrored
pair is a directed 2-cycle. -/
theorem c3_counterexample :
    hasCycle (GraphU.mk 2
      (fun n => if n = 0 then [1] else if n = 1 then [0] else [])) =
      some true := by
  rfl

/-- **C3** witness: on a concrete acyclic directed graph the corrected
theorem applies and `has_cycle` returns `false`. -/
theorem c3_witness :
    hasCycle (GraphU.mk 2 (fun n => if n = 0 then [1] else [])) =
        some false ∧
      ¬HasCycleProp (GraphU.mk 2 (fun n => if n = 0 then [1] else [])) := by
  have hw : WfU (GraphU.mk 2 (fun n => if n = 0 then [1] else [])) := by
    intro n
    refine ⟨?_, ?_, ?_⟩
    · show (if n = 0 then [1] else [] : List ℕ).Nodup
      by_cases h : n = 0 <;> simp [h]
    · intro m hm
      show m < 2
      have hm' : m ∈ (if n = 0 then [1] else [] : List ℕ) := hm
      by_cases h : n = 0
      · rw [if_pos h] at hm'
        simp at hm'
        omega
      · rw [if_neg h] at hm'
        cases hm'
    · intro h2
      have h2' : 2 ≤ n := h2
      show (if n = 0 then [1] else [] : List ℕ) = []
      rw [if_neg (by omega)]
  have hfalse : hasCycle (GraphU.mk 2
      (fun n => if n = 0 then [1] else [])) = some false := by rfl
  exact ⟨hfalse,
    (c3_has_cycle_directed (GraphU.mk 2
      (fun n => if n = 0 then [1] else [])) hw).2.mp hfalse⟩

theorem keyLE_iff (a b : ℤ × ℕ) :
    keyLE a b = true ↔ (a.1 < b.1 ∨ (a.1 = b.1 ∧ a.2 ≤ b.2)) := by
  simp [keyLE]

theorem keyLE_refl (a : ℤ × ℕ) : keyLE a a = true := by
  rw [keyLE_iff]
  right
  exact ⟨rfl, le_refl _⟩

theorem keyLE_total (a b : ℤ × ℕ) : keyLE a b = true ∨ keyLE b a = true := by
  rw [keyLE_iff, keyLE_iff]
  omega

theorem keyLE_trans {a b c : ℤ × ℕ} (h1 : keyLE a b = true)
    (h2 : keyLE b c = true) : keyLE a c = true := by
  rw [keyLE_iff] at h1 h2 ⊢
  omega

theorem keyLE_cost {a b : ℤ × ℕ} (h : keyLE a b = true) : a.1 ≤ b.1 := by
  rw [keyLE_iff] at h
  omega

theorem popMinBy_perm (key : α → ℤ × ℕ) :
    ∀ (e : α) (l : List α),
      List.Perm ((popMinBy key e l).1 :: (popMinBy key e l).2) (e :: l) := by
  intro e l
  induction l generalizing e with
  | nil =>
    rw [popMinBy]
  | cons f rest ih =>
    rw [popMinBy]
    by_cases h : keyLE (key e) (key f) = true
    · rw [if_pos h]
      show List.Perm
        ((popMinBy key e rest).1 :: f :: (popMinBy key e rest).2) _
      have t1 : List.Perm
          ((popMinBy key e rest).1 :: f :: (popMinBy key e rest).2)
          (f :: (popMinBy key e rest).1 :: (popMinBy key e rest).2) :=
        List.Perm.swap f _ _
      have t2 : List.Perm
          (f :: (popMinBy key e rest).1 :: (popMinBy key e rest).2)
          (f :: e :: rest) := (ih e).cons f
      have t3 : List.Perm (f :: e :: rest) (e :: f :: rest) :=
        List.Perm.swap e f rest
      exact (t1.trans t2).trans t3
    · rw [if_neg h]
      show List.Perm
        ((popMinBy key f rest).1 :: e :: (popMinBy key f rest).2) _
      have t1 : List.Perm
          ((popMinBy key f rest).1 :: e :: (popMinBy key f rest).2)
          (e :: (popMinBy key f rest).1 :: (popMinBy key f rest).2) :=
        List.Perm.swap e _ _
      have t2 : List.Perm
          (e :: (popMinBy key f rest).1 :: (popMinBy key f rest).2)
          (e :: f :: rest) := (ih f).cons e
      exact t1.trans t2

theorem popMinBy_min (key : α → ℤ × ℕ) :
    ∀ (e : α) (l : List α) (f : α), f ∈ e :: l →
      keyLE (key (popMinBy key e l).1) (key f) = true := by
  intro e l
  induction l generalizing e with
  | nil =>
    intro f hf
    rw [List.mem_singleton] at hf
    subst hf
    rw [popMinBy]
    exact keyLE_refl _
  | cons f rest ih =>
    intro x hx
    rw [popMinBy]
    by_cases h : keyLE (key e) (key f) = true
    · rw [if_pos h]
      show keyLE (key (popMinBy key e rest).1) (key x) = true
      rcases List.mem_cons.mp hx with heq | hx'
      · rw [heq]
        exact ih e e (List.mem_cons_self e rest)
      rcases List.mem_cons.mp hx' with heq | hx''
      · rw [heq]
        exact keyLE_trans (ih e e (List.mem_cons_self e rest)) h
      · exact ih e x (List.mem_cons_of_mem _ hx'')
    · rw [if_neg h]
      show keyLE (key (popMinBy key f rest).1) (key x) = true
      have hfe : keyLE (key f) (key e) = true := by
        rcases keyLE_total (key e) (key f) with h' | h'
        · exact absurd h' h
        · exact h'
      rcases List.mem_cons.mp hx with heq | hx'
      · rw [heq]
        exact keyLE_trans (ih f f (List.mem_cons_self f rest)) hfe
      rcases List.mem_cons.mp hx' with heq | hx''
      · rw [heq]
        exact ih f f (List.mem_cons_self f rest)
      · exact ih f x (List.mem_cons_of_mem _ hx'')

theorem pathCost_nil (g : GraphW) : pathCost g [] = 0 := rfl

theorem pathCost_single (g : GraphW) (a : ℕ) : pathCost g [a] = 0 := rfl

theorem pathCost_cons2 (g : GraphW) (a b : ℕ) (rest : List ℕ) :
    pathCost g (a :: b :: rest) = g.w a b + pathCost g (b :: rest) := rfl

theorem pathCost_nonneg {g : GraphW}
    (hnn : ∀ x : ℕ, ∀ y ∈ g.nbrs x, 0 ≤ g.w x y) :
    ∀ {p : List ℕ}, List.Chain' (fun x y => y ∈ g.toU.nbrs x) p →
      0 ≤ pathCost g p := by
  intro p
  induction p with
  | nil => intro _; exact le_refl 0
  | cons a t ih =>
    intro hc
    rcases t with _ | ⟨b, t'⟩
    · exact le_refl 0
    · rw [pathCost_cons2]
      rw [List.chain'_cons] at hc
      exact add_nonneg (hnn a b hc.1) (ih hc.2)

theorem pathCost_append_edge (g : GraphW) :
    ∀ (p : List ℕ), p ≠ [] → ∀ (b : ℕ),
      pathCost g (p ++ [b]) = pathCost g p + g.w (p.getLastD 0) b := by
  intro p
  induction p with
  | nil => intro h; exact absurd rfl h
  | cons a t ih =>
    intro _ b
    rcases t with _ | ⟨c, t'⟩
    · rw [show ([a] : List ℕ) ++ [b] = [a, b] from rfl,
        pathCost_cons2, pathCost_single, pathCost_single]
      show g.w a b + 0 = 0 + g.w a b
      ring
    · rw [show (a :: c :: t') ++ [b] = a :: (c :: (t' ++ [b])) from rfl,
        pathCost_cons2]
      have hih := ih (List.cons_ne_nil c t') b
      rw [show ((c :: t' : List ℕ)) ++ [b] = c :: (t' ++ [b]) from rfl] at hih
      rw [hih, pathCost_cons2,
        show (a :: c :: t').getLastD 0 = (c :: t').getLastD 0 from rfl]
      ring

theorem pathCost_split (g : GraphW) :
    ∀ (u : List ℕ), u ≠ [] → ∀ (x : ℕ) (v : List ℕ),
      pathCost g (u ++ x :: v) =
        pathCost g (u ++ [x]) + pathCost g (x :: v) := by
  intro u
  induction u with
  | nil => intro h; exact absurd rfl h
  | cons a t ih =>
    intro _ x v
    rcases t with _ | ⟨c, t'⟩
    · rw [show ([a] : List ℕ) ++ x :: v = a :: x :: v from rfl,
        show ([a] : List ℕ) ++ [x] = [a, x] from rfl,
        pathCost_cons2, pathCost_cons2, pathCost_single]
      ring
    · rw [show (a :: c :: t') ++ x :: v =
          a :: (c :: (t' ++ x :: v)) from rfl,
        pathCost_cons2,
        show (a :: c :: t') ++ [x] = a :: (c :: (t' ++ [x])) from rfl,
        pathCost_cons2]
      have hih := ih (List.cons_ne_nil c t') x v
      rw [show ((c :: t' : List ℕ)) ++ x :: v = c :: (t' ++ x :: v) from rfl,
        show ((c :: t' : List ℕ)) ++ [x] = c :: (t' ++ [x]) from rfl] at hih
      rw [hih]
      ring

theorem wDist_le {g : GraphW}
    (hnn : ∀ x : ℕ, ∀ y ∈ g.nbrs x, 0 ≤ g.w x y) {root x : ℕ} {p : List ℕ}
    (hp : IsPathFrom g.toU root x p) :
    (wDist g root x : ℤ) ≤ pathCost g p := by
  have h0 : 0 ≤ pathCost g p := pathCost_nonneg hnn hp.2.2
  have hk : (pathCost g p).toNat ∈
      {k : ℕ | ∃ q, IsPathFrom g.toU root x q ∧ pathCost g q = (k : ℤ)} :=
    ⟨p, hp, by rw [Int.toNat_of_nonneg h0]⟩
  have := Nat.sInf_le hk
  calc (wDist g root x : ℤ) ≤ ((pathCost g p).toNat : ℤ) := by
        exact_mod_cast this
    _ = pathCost g p := Int.toNat_of_nonneg h0

theorem wDist_attained {g : GraphW}
    (hnn : ∀ x : ℕ, ∀ y ∈ g.nbrs x, 0 ≤ g.w x y) {root x : ℕ}
    (hr : Reachable g.toU root x) :
    ∃ p, IsPathFrom g.toU root x p ∧ pathCost g p = (wDist g root x : ℤ) := by
  obtain ⟨p, hp⟩ := hr
  have h0 : 0 ≤ pathCost g p := pathCost_nonneg hnn hp.2.2
  have hne : {k : ℕ | ∃ q, IsPathFrom g.toU root x q ∧
      pathCost g q = (k : ℤ)}.Nonempty :=
    ⟨(pathCost g p).toNat, p, hp, by rw [Int.toNat_of_nonneg h0]⟩
  obtain ⟨q, hq, hqc⟩ := Nat.sInf_mem hne
  exact ⟨q, hq, hqc⟩

theorem qMeasure_perm {g : GraphW} {q1 q2 : List (ℤ × ℕ × Finset ℕ)}
    (h : List.Perm q1 q2) : qMeasure g q1 = qMeasure g q2 :=
  List.Perm.sum_eq (h.map _)

theorem qMeasure_step {g : GraphW} (hw : WfU g.toU)
    (m : ℤ × ℕ × Finset ℕ) (q : List (ℤ × ℕ × Finset ℕ)) (hist : Finset ℕ)
    (hg1 : m.2.1 ∉ m.2.2) (hg2 : m.2.2 ⊆ Finset.range g.N) :
    qMeasure g ((((g.nbrs m.2.1).filter fun nb =>
        decide (nb ∉ insert m.2.1 hist)).map fun nb =>
      (g.w m.2.1 nb + m.1, nb, insert m.2.1 m.2.2)) ++ q) <
      qMeasure g (m :: q) := by
  rw [qMeasure, qMeasure, List.map_append, List.sum_append, List.map_cons,
    List.sum_cons, List.map_map]
  apply Nat.add_lt_add_right
  set c := m.2.2.card with hc
  rcases hnil : g.nbrs m.2.1 with _ | ⟨n0, ns⟩
  · rw [List.filter_nil, List.map_nil, List.sum_nil]
    exact Nat.pos_pow_of_pos _ (by omega)
  · have hne : g.nbrs m.2.1 ≠ [] := by rw [hnil]; exact List.cons_ne_nil _ _
    have hcurrN : m.2.1 < g.N := by
      by_contra hN
      push_neg at hN
      exact hne ((hw m.2.1).2.2 hN)
    have hinsN : insert m.2.1 m.2.2 ⊆ Finset.range g.N := by
      intro x hx
      rcases Finset.mem_insert.mp hx with rfl | hx'
      · exact Finset.mem_range.mpr hcurrN
      · exact hg2 hx'
    have hcard : (insert m.2.1 m.2.2).card = c + 1 :=
      Finset.card_insert_of_not_mem hg1
    have hc1N : c + 1 ≤ g.N := by
      calc c + 1 = (insert m.2.1 m.2.2).card := hcard.symm
        _ ≤ (Finset.range g.N).card := Finset.card_le_card hinsN
        _ = g.N := Finset.card_range g.N
    have hterm : ∀ nb, ((fun e : ℤ × ℕ × Finset ℕ =>
        (g.N + 1) ^ (g.N - e.2.2.card)) ∘ fun nb =>
          (g.w m.2.1 nb + m.1, nb, insert m.2.1 m.2.2)) nb =
        (g.N + 1) ^ (g.N - (c + 1)) := by
      intro nb
      show (g.N + 1) ^ (g.N - (insert m.2.1 m.2.2).card) = _
      rw [hcard]
    have hsum : (((g.nbrs m.2.1).filter fun nb =>
        decide (nb ∉ insert m.2.1 hist)).map
          ((fun e : ℤ × ℕ × Finset ℕ => (g.N + 1) ^ (g.N - e.2.2.card)) ∘
            fun nb => (g.w m.2.1 nb + m.1, nb, insert m.2.1 m.2.2))).sum ≤
        (g.nbrs m.2.1).length * (g.N + 1) ^ (g.N - (c + 1)) := by
      have hall : ∀ x ∈ ((g.nbrs m.2.1).filter fun nb =>
          decide (nb ∉ insert m.2.1 hist)).map
            ((fun e : ℤ × ℕ × Finset ℕ => (g.N + 1) ^ (g.N - e.2.2.card)) ∘
              fun nb => (g.w m.2.1 nb + m.1, nb, insert m.2.1 m.2.2)),
          x ≤ (g.N + 1) ^ (g.N - (c + 1)) := by
        intro x hx
        obtain ⟨nb, _, rfl⟩ := List.mem_map.mp hx
        rw [hterm nb]
      calc (((g.nbrs m.2.1).filter _).map _).sum
          ≤ (((g.nbrs m.2.1).filter _).map _).length •
              (g.N + 1) ^ (g.N - (c + 1)) :=
            List.sum_le_card_nsmul _ _ hall
        _ = ((g.nbrs m.2.1).filter fun nb =>
              decide (nb ∉ insert m.2.1 hist)).length *
              (g.N + 1) ^ (g.N - (c + 1)) := by
            rw [List.length_map, smul_eq_mul]
        _ ≤ (g.nbrs m.2.1).length * (g.N + 1) ^ (g.N - (c + 1)) :=
            Nat.mul_le_mul_right _ (List.length_filter_le _ _)
    have hlen := nbrs_length_le hw m.2.1
    have hpow : (g.N + 1) ^ (g.N - c) =
        (g.N + 1) * (g.N + 1) ^ (g.N - (c + 1)) := by
      have hx : g.N - c = (g.N - (c + 1)) + 1 := by omega
      rw [hx, pow_succ, mul_comm]
    rw [← hnil]
    calc (((g.nbrs m.2.1).filter _).map _).sum
        ≤ (g.nbrs m.2.1).length * (g.N + 1) ^ (g.N - (c + 1)) := hsum
      _ ≤ g.N * (g.N + 1) ^ (g.N - (c + 1)) :=
          Nat.mul_le_mul_right _ hlen
      _ < (g.N + 1) * (g.N + 1) ^ (g.N - (c + 1)) := by
          have hpos : 0 < (g.N + 1) ^ (g.N - (c + 1)) :=
            Nat.pos_pow_of_pos _ (by omega)
          exact (Nat.mul_lt_mul_right hpos).mpr (by omega)
      _ = (g.N + 1) ^ (g.N - c) := hpow.symm

theorem dij_pop_min {g : GraphW} {root target : ℕ}
    (hnn : ∀ x : ℕ, ∀ y ∈ g.nbrs x, 0 ≤ g.w x y)
    {queue : List (ℤ × ℕ × Finset ℕ)} {hist : Finset ℕ}
    (inv : DijInv g root target queue hist)
    {m : ℤ × ℕ × Finset ℕ} (hm : m ∈ queue)
    (hmin : ∀ f ∈ queue, keyLE (m.1, m.2.1) (f.1, f.2.1) = true)
    (hcur : m.2.1 ∉ hist) :
    m.1 = (wDist g root m.2.1 : ℤ) := by
  obtain ⟨pm, hpm, hpmc⟩ := inv.costs m hm
  have hge : (wDist g root m.2.1 : ℤ) ≤ m.1 := by
    rw [← hpmc]
    exact wDist_le hnn hpm
  have hle : m.1 ≤ (wDist g root m.2.1 : ℤ) := by
    obtain ⟨sp, hsp, hspc⟩ := wDist_attained hnn ⟨pm, hpm⟩
    rcases first_out_of_path hist hsp hcur with hroot |
      ⟨y, x, p₁, p₂, heq, hx, hyh, hxy, hp₁, _, _⟩
    · rcases inv.rootcov with h | ⟨f, hf, hfr, hf0⟩
      · exact absurd h hroot
      · have h1 : m.1 ≤ f.1 := keyLE_cost (hmin f hf)
        have h2 : (0 : ℤ) ≤ (wDist g root m.2.1 : ℤ) := Int.ofNat_nonneg _
        omega
    · rcases inv.frontier y hyh x hxy with hxh | ⟨f, hf, hfx, hfb⟩
      · exact absurd hxh hx
      · have h1 : m.1 ≤ f.1 := keyLE_cost (hmin f hf)
        have hp₁ne : p₁ ≠ [] := path_ne_nil hp₁
        have hylast : p₁.getLastD 0 = y := path_getLastD hp₁
        have hchain2 : List.Chain' (fun a b => b ∈ g.toU.nbrs a) (x :: p₂) := by
          have h4 := hsp.2.2
          rw [heq, List.chain'_append] at h4
          exact h4.2.1
        have hsplit := pathCost_split g p₁ hp₁ne x p₂
        have happ := pathCost_append_edge g p₁ hp₁ne x
        have hsuffix : 0 ≤ pathCost g (x :: p₂) :=
          pathCost_nonneg hnn hchain2
        have hdy : (wDist g root y : ℤ) ≤ pathCost g p₁ := wDist_le hnn hp₁
        have hcost : pathCost g sp = pathCost g p₁ + g.w y x +
            pathCost g (x :: p₂) := by
          rw [heq, hsplit, happ, hylast]
        have : f.1 ≤ pathCost g sp := by
          rw [hcost]
          have := hfb
          omega
        rw [← hspc]
        omega
  omega

theorem dijkstraRun_cons (g : GraphW) (target : ℕ) (f : ℕ)
    (e : ℤ × ℕ × Finset ℕ) (rest : List (ℤ × ℕ × Finset ℕ))
    (hist : Finset ℕ) :
    dijkstraRun g target (f + 1) (e :: rest) hist =
      if (popMinBy (fun x => (x.1, x.2.1)) e rest).1.2.1 = target then
        some (popMinBy (fun x => (x.1, x.2.1)) e rest).1.1
      else
        dijkstraRun g target f
          ((((g.nbrs (popMinBy (fun x => (x.1, x.2.1)) e rest).1.2.1).filter
              fun nb => decide (nb ∉ insert
                (popMinBy (fun x => (x.1, x.2.1)) e rest).1.2.1 hist)).map
            fun nb =>
              (g.w (popMinBy (fun x => (x.1, x.2.1)) e rest).1.2.1 nb +
                (popMinBy (fun x => (x.1, x.2.1)) e rest).1.1, nb,
                insert (popMinBy (fun x => (x.1, x.2.1)) e rest).1.2.1
                  (popMinBy (fun x => (x.1, x.2.1)) e rest).1.2.2)) ++
            (popMinBy (fun x => (x.1, x.2.1)) e rest).2)
          (insert (popMinBy (fun x => (x.1, x.2.1)) e rest).1.2.1 hist) :=
  rfl

theorem dijkstraRun_correct {g : GraphW} {root target : ℕ} (hw : WfU g.toU)
    (hnn : ∀ x : ℕ, ∀ y ∈ g.nbrs x, 0 ≤ g.w x y) :
    ∀ (fuel : ℕ) (queue : List (ℤ × ℕ × Finset ℕ)) (hist : Finset ℕ),
      qMeasure g queue < fuel →
      DijInv g root target queue hist →
      (Reachable g.toU root target →
        ∃ c, dijkstraRun g target fuel queue hist = some c ∧
          (∃ p, IsPathFrom g.toU root target p ∧ pathCost g p = c) ∧
          ∀ p, IsPathFrom g.toU root target p → c ≤ pathCost g p) ∧
      (¬Reachable g.toU root target →
        dijkstraRun g target fuel queue hist = some pyInf) := by
  intro fuel
  induction fuel with
  | zero => intro queue hist hm _; omega
  | succ f ih =>
    intro queue hist hm inv
    rcases queue with _ | ⟨e, rest⟩
    · constructor
      · intro hreach
        exfalso
        have hrooth : root ∈ hist := by
          rcases inv.rootcov with h | ⟨f', hf', _⟩
          · exact h
          · cases hf'
        obtain ⟨sp, hsp⟩ := hreach
        rcases first_out_of_path hist hsp inv.tnotin with hroot |
          ⟨y, x, _, _, _, hx, hyh, hxy, _, _, _⟩
        · exact hroot hrooth
        · rcases inv.frontier y hyh x hxy with hxh | ⟨f', hf', _⟩
          · exact hx hxh
          · cases hf'
      · intro _
        rfl
    · rw [dijkstraRun_cons]
      have hperm := popMinBy_perm (fun x : ℤ × ℕ × Finset ℕ =>
        (x.1, x.2.1)) e rest
      have hminq := popMinBy_min (fun x : ℤ × ℕ × Finset ℕ =>
        (x.1, x.2.1)) e rest
      set m := (popMinBy (fun x : ℤ × ℕ × Finset ℕ =>
        (x.1, x.2.1)) e rest).1 with hmdef
      set q := (popMinBy (fun x : ℤ × ℕ × Finset ℕ =>
        (x.1, x.2.1)) e rest).2 with hqdef
      have hmemq : ∀ f' ∈ m :: q, f' ∈ e :: rest :=
        fun f' hf' => hperm.mem_iff.mp hf'
      have hmemq' : ∀ f' ∈ e :: rest, f' ∈ m :: q :=
        fun f' hf' => hperm.mem_iff.mpr hf'
      have hmmem : m ∈ e :: rest := hmemq m (List.mem_cons_self m q)
      obtain ⟨pm, hpm, hpmc⟩ := inv.costs m hmmem
      by_cases htgt : m.2.1 = target
      · rw [if_pos htgt]
        have hfresh : m.2.1 ∉ hist := by
          rw [htgt]
          exact inv.tnotin
        have hval : m.1 = (wDist g root m.2.1 : ℤ) :=
          dij_pop_min hnn inv hmmem hminq hfresh
        constructor
        · intro _
          refine ⟨m.1, rfl, ?_, ?_⟩
          · rw [htgt] at hpm
            exact ⟨pm, hpm, hpmc⟩
          · intro p hp
            rw [hval, htgt]
            exact wDist_le hnn hp
        · intro hnreach
          exfalso
          rw [htgt] at hpm
          exact hnreach ⟨pm, hpm⟩
      · rw [if_neg htgt]
        have hgm := inv.ghosts m hmmem
        have hstep := qMeasure_step hw m q hist hgm.2.1 hgm.2.2
        have hqm : qMeasure g (m :: q) = qMeasure g (e :: rest) :=
          qMeasure_perm hperm
        have hlastpm : pm.getLastD 0 = m.2.1 := path_getLastD hpm
        have inv' : DijInv g root target
            ((((g.nbrs m.2.1).filter fun nb =>
                decide (nb ∉ insert m.2.1 hist)).map fun nb =>
              (g.w m.2.1 nb + m.1, nb, insert m.2.1 m.2.2)) ++ q)
            (insert m.2.1 hist) := by
          refine ⟨?_, ?_, ?_, ?_, ?_, ?_⟩
          · intro f' hf'
            rcases List.mem_append.mp hf' with hp' | hq'
            · obtain ⟨nb, hnb, rfl⟩ := List.mem_map.mp hp'
              have hnb' : nb ∈ g.nbrs m.2.1 := (List.mem_filter.mp hnb).1
              refine ⟨pm ++ [nb], path_append_edge hpm hnb', ?_⟩
              rw [pathCost_append_edge g pm (path_ne_nil hpm) nb, hlastpm,
                hpmc]
              ring
            · exact inv.costs f' (hmemq f' (List.mem_cons_of_mem m hq'))
          · intro f' hf'
            rcases List.mem_append.mp hf' with hp' | hq'
            · obtain ⟨nb, hnb, rfl⟩ := List.mem_map.mp hp'
              obtain ⟨hnb', hnbh⟩ := List.mem_filter.mp hnb
              rw [decide_eq_true_eq] at hnbh
              refine ⟨Finset.insert_subset_insert _ hgm.1, ?_, ?_⟩
              · intro hmem
                exact hnbh (Finset.insert_subset_insert _ hgm.1 hmem)
              · intro x hx
                rcases Finset.mem_insert.mp hx with rfl | hx'
                · refine Finset.mem_range.mpr ?_
                  by_contra hN
                  push_neg at hN
                  have hnil := (hw m.2.1).2.2 hN
                  have hnb2 : nb ∈ g.toU.nbrs m.2.1 := hnb'
                  rw [hnil] at hnb2
                  cases hnb2
                · exact hgm.2.2 hx'
            · obtain ⟨h1, h2, h3⟩ :=
                inv.ghosts f' (hmemq f' (List.mem_cons_of_mem m hq'))
              exact ⟨h1.trans (Finset.subset_insert _ _), h2, h3⟩
          · intro x hx nb' hnb'
            rcases Finset.mem_insert.mp hx with rfl | hxh
            · by_cases hfresh : m.2.1 ∈ hist
              · rcases inv.frontier m.2.1 hfresh nb' hnb' with hin |
                  ⟨f', hf', hfx, hfb⟩
                · exact Or.inl (Finset.mem_insert_of_mem hin)
                · rcases List.mem_cons.mp (hmemq' f' hf') with heqm | hq'
                  · left
                    rw [← hfx, heqm]
                    exact Finset.mem_insert_self _ _
                  · exact Or.inr ⟨f', List.mem_append_right _ hq', hfx, hfb⟩
              · have hval : m.1 = (wDist g root m.2.1 : ℤ) :=
                  dij_pop_min hnn inv hmmem hminq hfresh
                by_cases hnh : nb' ∈ insert m.2.1 hist
                · exact Or.inl hnh
                · refine Or.inr ⟨(g.w m.2.1 nb' + m.1, nb',
                    insert m.2.1 m.2.2),
                    List.mem_append_left _ (List.mem_map_of_mem _
                      (List.mem_filter.mpr
                        ⟨hnb', decide_eq_true hnh⟩)), rfl, ?_⟩
                  rw [hval]
                  omega
            · rcases inv.frontier x hxh nb' hnb' with hin |
                ⟨f', hf', hfx, hfb⟩
              · exact Or.inl (Finset.mem_insert_of_mem hin)
              · rcases List.mem_cons.mp (hmemq' f' hf') with heqm | hq'
                · left
                  rw [← hfx, heqm]
                  exact Finset.mem_insert_self _ _
                · exact Or.inr ⟨f', List.mem_append_right _ hq', hfx, hfb⟩
          · rcases inv.rootcov with h | ⟨f', hf', hfr, hf0⟩
            · exact Or.inl (Finset.mem_insert_of_mem h)
            · rcases List.mem_cons.mp (hmemq' f' hf') with heqm | hq'
              · left
                rw [← hfr, heqm]
                exact Finset.mem_insert_self _ _
              · exact Or.inr ⟨f', List.mem_append_right _ hq', hfr, hf0⟩
          · intro x hx
            rcases Finset.mem_insert.mp hx with rfl | hxh
            · exact ⟨pm, hpm⟩
            · exact inv.histreach x hxh
          · intro hmem
            rcases Finset.mem_insert.mp hmem with heq | hin
            · exact htgt heq.symm
            · exact inv.tnotin hin
        exact ih _ _ (by omega) inv'

/-- **C2** (confirmed).  On a weighted graph with non-negative edge
weights and in-range `root` and `target`, `dijkstra(root, target)`
returns `0` immediately when `root = target`; returns the `sys.maxsize`
sentinel when `target` is unreachable from `root`; and otherwise returns
the minimum total weight over all directed paths from `root` to
`target`, attained by an actual path. -/
theorem c2_dijkstra (g : GraphW) (hw : WfU g.toU)
    (hnn : ∀ x : ℕ, ∀ y ∈ g.nbrs x, 0 ≤ g.w x y) (root target : ℕ)
    (hroot : root < g.N) (htarget : target < g.N) :
    (root = target → dijkstra g root target = some 0) ∧
    (root ≠ target → ¬Reachable g.toU root target →
      dijkstra g root target = some pyInf) ∧
    (root ≠ target → Reachable g.toU root target →
      ∃ c, dijkstra g root target = some c ∧
        (∃ p, IsPathFrom g.toU root target p ∧ pathCost g p = c) ∧
        ∀ p, IsPathFrom g.toU root target p → c ≤ pathCost g p) := by
  have hinv : DijInv g root target [(0, root, ∅)] ∅ := by
    refine ⟨?_, ?_, ?_, ?_, ?_, ?_⟩
    · intro e he
      rw [List.mem_singleton] at he
      subst he
      exact ⟨[root], path_single g.toU root, rfl⟩
    · intro e he
      rw [List.mem_singleton] at he
      subst he
      exact ⟨Finset.empty_subset _, Finset.not_mem_empty _,
        Finset.empty_subset _⟩
    · intro x hx
      exact absurd hx (Finset.not_mem_empty x)
    · exact Or.inr ⟨(0, root, ∅), List.mem_singleton_self _, rfl, le_refl 0⟩
    · intro x hx
      exact absurd hx (Finset.not_mem_empty x)
    · exact Finset.not_mem_empty target
  have hmeas : qMeasure g [(0, root, ∅)] < dijkstraFuel g := by
    rw [qMeasure, dijkstraFuel]
    simp only [List.map_cons, List.map_nil, List.sum_cons, List.sum_nil,
      add_zero, Finset.card_empty, Nat.sub_zero]
    omega
  refine ⟨?_, ?_, ?_⟩
  · intro heq
    rw [dijkstra, if_pos heq]
  · intro hne hnreach
    rw [dijkstra, if_neg hne]
    exact (dijkstraRun_correct hw hnn (dijkstraFuel g) _ _ hmeas hinv).2
      hnreach
  · intro hne hreach
    rw [dijkstra, if_neg hne]
    exact (dijkstraRun_correct hw hnn (dijkstraFuel g) _ _ hmeas hinv).1
      hreach

/-- **C2** witness: the theorem applied at a concrete two-node graph with
unit weights, in the `root = target` case. -/
theorem c2_dijkstra_witness :
    (0 : ℕ) = 0 ∧
      dijkstra (GraphW.mk 2 (fun n => if n = 0 then [1] else [])
        (fun _ _ => 1)) 0 0 = some 0 := by
  have hw : WfU (GraphW.mk 2 (fun n => if n = 0 then [1] else [])
      (fun _ _ => 1)).toU := by
    intro n
    refine ⟨?_, ?_, ?_⟩
    · show (if n = 0 then [1] else [] : List ℕ).Nodup
      by_cases h : n = 0 <;> simp [h]
    · intro m hm
      show m < 2
      have hm' : m ∈ (if n = 0 then [1] else [] : List ℕ) := hm
      by_cases h : n = 0
      · rw [if_pos h] at hm'
        simp at hm'
        omega
      · rw [if_neg h] at hm'
        cases hm'
    · intro h2
      have h2' : 2 ≤ n := h2
      show (if n = 0 then [1] else [] : List ℕ) = []
      rw [if_neg (by omega)]
  exact ⟨rfl, (c2_dijkstra _ hw (fun x y _ => by norm_num) 0 0
    (by norm_num) (by norm_num)).1 rfl⟩

theorem reachable_step {g : GraphU} {a b c : ℕ} (h : Reachable g a b)
    (hc : c ∈ g.nbrs b) : Reachable g a c := by
  obtain ⟨p, hp⟩ := h
  exact ⟨p ++ [c], path_append_edge hp hc⟩

theorem primRun_done {g : GraphW} {f : ℕ} {queue : List (ℤ × ℕ)}
    {hist : Finset ℕ} {acc : ℤ} (h : g.N ≤ hist.card) :
    primRun g (f + 1) queue hist acc = some (Except.ok acc) := by
  rcases queue with _ | ⟨e, rest⟩
  · show (if g.N ≤ hist.card then some (Except.ok acc)
      else some (Except.error ())) = some (Except.ok acc)
    rw [if_pos h]
  · show (if g.N ≤ hist.card then some (Except.ok acc) else _) =
      some (Except.ok acc)
    rw [if_pos h]

theorem primRun_nil {g : GraphW} {f : ℕ} {hist : Finset ℕ} {acc : ℤ}
    (h : ¬g.N ≤ hist.card) :
    primRun g (f + 1) [] hist acc = some (Except.error ()) := by
  show (if g.N ≤ hist.card then some (Except.ok acc)
    else some (Except.error ())) = some (Except.error ())
  rw [if_neg h]

theorem primRun_pop {g : GraphW} {f : ℕ} {e : ℤ × ℕ} {rest : List (ℤ × ℕ)}
    {hist : Finset ℕ} {acc : ℤ} (h : ¬g.N ≤ hist.card) :
    primRun g (f + 1) (e :: rest) hist acc =
      if (popMinBy (fun x => x) e rest).1.2 ∈ hist then
        primRun g f (popMinBy (fun x => x) e rest).2 hist acc
      else
        primRun g f
          ((((g.nbrs (popMinBy (fun x => x) e rest).1.2).filter
              fun nb => decide (nb ∉ insert
                (popMinBy (fun x => x) e rest).1.2 hist)).map fun nb =>
            (g.w (popMinBy (fun x => x) e rest).1.2 nb, nb)) ++
            (popMinBy (fun x => x) e rest).2)
          (insert (popMinBy (fun x => x) e rest).1.2 hist)
          (acc + (popMinBy (fun x => x) e rest).1.1) := by
  show (if g.N ≤ hist.card then some (Except.ok acc) else
    if (popMinBy (fun x => x) e rest).1.2 ∈ hist then
      primRun g f (popMinBy (fun x => x) e rest).2 hist acc
    else
      primRun g f
        ((((g.nbrs (popMinBy (fun x => x) e rest).1.2).filter
            fun nb => decide (nb ∉ insert
              (popMinBy (fun x => x) e rest).1.2 hist)).map fun nb =>
          (g.w (popMinBy (fun x => x) e rest).1.2 nb, nb)) ++
          (popMinBy (fun x => x) e rest).2)
        (insert (popMinBy (fun x => x) e rest).1.2 hist)
        (acc + (popMinBy (fun x => x) e rest).1.1)) = _
  rw [if_neg h]

theorem primRun_correct {g : GraphW} (hw : WfU g.toU) :
    ∀ (fuel : ℕ) (queue : List (ℤ × ℕ)) (hist : Finset ℕ) (acc : ℤ),
      pMeasure g queue hist < fuel →
      PrimInv g queue hist →
      ((∀ v, v < g.N → Reachable g.toU 0 v) →
        ∃ c, primRun g fuel queue hist acc = some (Except.ok c)) ∧
      ((∃ v, v < g.N ∧ ¬Reachable g.toU 0 v) →
        primRun g fuel queue hist acc = some (Except.error ())) := by
  intro fuel
  induction fuel with
  | zero => intro queue hist acc hm _; omega
  | succ f ih =>
    intro queue hist acc hm inv
    by_cases hdone : g.N ≤ hist.card
    · rw [primRun_done hdone]
      have hall : hist = Finset.range g.N :=
        Finset.eq_of_subset_of_card_le inv.hrange
          (by rw [Finset.card_range]; exact hdone)
      constructor
      · intro _
        exact ⟨acc, rfl⟩
      · rintro ⟨v, hv, hnr⟩
        exfalso
        exact hnr (inv.hreach v (by
          rw [hall]
          exact Finset.mem_range.mpr hv))
    · rcases queue with _ | ⟨e, rest⟩
      · rw [primRun_nil hdone]
        constructor
        · intro hall
          exfalso
          push_neg at hdone
          have hvex : ∃ v, v < g.N ∧ v ∉ hist := by
            by_contra hc
            push_neg at hc
            have hsub : Finset.range g.N ⊆ hist :=
              fun v hv => hc v (Finset.mem_range.mp hv)
            have := Finset.card_le_card hsub
            rw [Finset.card_range] at this
            omega
          obtain ⟨v, hvN, hvh⟩ := hvex
          obtain ⟨sp, hsp⟩ := hall v hvN
          have hrooth : 0 ∈ hist := by
            rcases inv.rootcov with h | ⟨f', hf', _⟩
            · exact h
            · cases hf'
          rcases first_out_of_path hist hsp hvh with hroot |
            ⟨y, x, _, _, _, hx, hyh, hxy, _, _, _⟩
          · exact hroot hrooth
          · rcases inv.frontier y hyh x hxy with hxh | ⟨f', hf', _⟩
            · exact hx hxh
            · cases hf'
        · intro _
          rfl
      · rw [primRun_pop hdone]
        have hperm := popMinBy_perm (fun x : ℤ × ℕ => x) e rest
        set m := (popMinBy (fun x : ℤ × ℕ => x) e rest).1 with hmdef
        set q := (popMinBy (fun x : ℤ × ℕ => x) e rest).2 with hqdef
        have hmemq : ∀ f' ∈ m :: q, f' ∈ e :: rest :=
          fun f' hf' => hperm.mem_iff.mp hf'
        have hmemq' : ∀ f' ∈ e :: rest, f' ∈ m :: q :=
          fun f' hf' => hperm.mem_iff.mpr hf'
        have hmmem : m ∈ e :: rest := hmemq m (List.mem_cons_self m q)
        have hqlen : q.length = rest.length := by
          have hL := hperm.length_eq
          simpa using hL
        by_cases hstale : m.2 ∈ hist
        · rw [if_pos hstale]
          have inv' : PrimInv g q hist := by
            refine ⟨?_, ?_, inv.hreach, inv.hrange, ?_, ?_⟩
            · intro f' hf'
              exact inv.qreach f' (hmemq f' (List.mem_cons_of_mem m hf'))
            · intro f' hf'
              exact inv.qrange f' (hmemq f' (List.mem_cons_of_mem m hf'))
            · intro x hx nb hnb
              rcases inv.frontier x hx nb hnb with hin | ⟨f', hf', hfx⟩
              · exact Or.inl hin
              · rcases List.mem_cons.mp (hmemq' f' hf') with heqm | hq'
                · left
                  rw [← hfx, heqm]
                  exact hstale
                · exact Or.inr ⟨f', hq', hfx⟩
            · rcases inv.rootcov with h | ⟨f', hf', hfr⟩
              · exact Or.inl h
              · rcases List.mem_cons.mp (hmemq' f' hf') with heqm | hq'
                · left
                  rw [← hfr, heqm]
                  exact hstale
                · exact Or.inr ⟨f', hq', hfr⟩
          refine ih q hist acc ?_ inv'
          rw [pMeasure] at hm ⊢
          rw [List.length_cons] at hm
          omega
        · rw [if_neg hstale]
          have hcurrN : m.2 < g.N := inv.qrange m hmmem
          have hcreach : Reachable g.toU 0 m.2 := inv.qreach m hmmem
          have inv' : PrimInv g
              ((((g.nbrs m.2).filter fun nb =>
                  decide (nb ∉ insert m.2 hist)).map fun nb =>
                (g.w m.2 nb, nb)) ++ q) (insert m.2 hist) := by
            refine ⟨?_, ?_, ?_, ?_, ?_, ?_⟩
            · intro f' hf'
              rcases List.mem_append.mp hf' with hp' | hq'
              · obtain ⟨nb, hnb, rfl⟩ := List.mem_map.mp hp'
                exact reachable_step hcreach (List.mem_filter.mp hnb).1
              · exact inv.qreach f' (hmemq f' (List.mem_cons_of_mem m hq'))
            · intro f' hf'
              rcases List.mem_append.mp hf' with hp' | hq'
              · obtain ⟨nb, hnb, rfl⟩ := List.mem_map.mp hp'
                exact (hw m.2).2.1 nb (List.mem_filter.mp hnb).1
              · exact inv.qrange f' (hmemq f' (List.mem_cons_of_mem m hq'))
            · intro x hx
              rcases Finset.mem_insert.mp hx with rfl | hxh
              · exact hcreach
              · exact inv.hreach x hxh
            · intro x hx
              rcases Finset.mem_insert.mp hx with rfl | hxh
              · exact Finset.mem_range.mpr hcurrN
              · exact inv.hrange hxh
            · intro x hx nb hnb
              rcases Finset.mem_insert.mp hx with rfl | hxh
              · by_cases hnh : nb ∈ insert m.2 hist
                · exact Or.inl hnh
                · exact Or.inr ⟨(g.w m.2 nb, nb),
                    List.mem_append_left _ (List.mem_map_of_mem _
                      (List.mem_filter.mpr ⟨hnb, decide_eq_true hnh⟩)), rfl⟩
              · rcases inv.frontier x hxh nb hnb with hin | ⟨f', hf', hfx⟩
                · exact Or.inl (Finset.mem_insert_of_mem hin)
                · rcases List.mem_cons.mp (hmemq' f' hf') with heqm | hq'
                  · left
                    rw [← hfx, heqm]
                    exact Finset.mem_insert_self _ _
                  · exact Or.inr ⟨f', List.mem_append_right _ hq', hfx⟩
            · rcases inv.rootcov with h | ⟨f', hf', hfr⟩
              · exact Or.inl (Finset.mem_insert_of_mem h)
              · rcases List.mem_cons.mp (hmemq' f' hf') with heqm | hq'
                · left
                  rw [← hfr, heqm]
                  exact Finset.mem_insert_self _ _
                · exact Or.inr ⟨f', List.mem_append_right _ hq', hfr⟩
          refine ih _ _ _ ?_ inv'
          push_neg at hdone
          have hins : (insert m.2 hist).card = hist.card + 1 :=
            Finset.card_insert_of_not_mem hstale
          rw [pMeasure] at hm ⊢
          rw [hins]
          have hk : g.N - hist.card = (g.N - (hist.card + 1)) + 1 := by
            omega
          rw [List.length_append, List.length_map]
          have hp1 : ((g.nbrs m.2).filter fun nb =>
              decide (nb ∉ insert m.2 hist)).length ≤ g.N :=
            (List.length_filter_le _ _).trans (nbrs_length_le hw m.2)
          rw [hk, add_one_mul] at hm
          set A := (g.N - (hist.card + 1)) * (g.N + 1) with hA
          rw [List.length_cons] at hm
          omega

/-- **C4** (confirmed).  The embedded `prim` always terminates with a
result: it returns an accumulated cost (`Except.ok`) exactly when every
node is reachable from node `0` — popping until `N` nodes are finalized —
and otherwise the frontier empties first and the `heappop` of the empty
list fails (`Except.error`), rather than looping forever. -/
theorem c4_prim_termination (g : GraphW) (hw : WfU g.toU) :
    (prim g).isSome ∧
    ((∃ c, prim g = some (Except.ok c)) ↔
      ∀ v, v < g.N → Reachable g.toU 0 v) := by
  by_cases hN : g.N = 0
  · have hok : prim g = some (Except.ok 0) := by
      rw [prim, primFuel, hN]
      show primRun g (1 + 1) [(0, 0)] ∅ 0 = some (Except.ok 0)
      exact primRun_done (by rw [hN]; exact Nat.zero_le _)
    constructor
    · rw [hok]
      rfl
    · constructor
      · intro _ v hv
        rw [hN] at hv
        omega
      · intro _
        exact ⟨0, hok⟩
  · have hN1 : 0 < g.N := Nat.pos_of_ne_zero hN
    have hinv : PrimInv g [(0, 0)] ∅ := by
      refine ⟨?_, ?_, ?_, ?_, ?_, ?_⟩
      · intro e he
        rw [List.mem_singleton] at he
        subst he
        exact ⟨[0], path_single g.toU 0⟩
      · intro e he
        rw [List.mem_singleton] at he
        subst he
        exact hN1
      · intro x hx
        exact absurd hx (Finset.not_mem_empty x)
      · exact Finset.empty_subset _
      · intro x hx
        exact absurd hx (Finset.not_mem_empty x)
      · exact Or.inr ⟨(0, 0), List.mem_singleton_self _, rfl⟩
    have hmeas : pMeasure g [(0, 0)] ∅ < primFuel g := by
      rw [pMeasure, primFuel, Finset.card_empty, Nat.sub_zero,
        List.length_singleton]
      set A := g.N * (g.N + 1) with hA
      omega
    obtain ⟨hok, herr⟩ :=
      primRun_correct hw (primFuel g) [(0, 0)] ∅ 0 hmeas hinv
    by_cases hconn : ∀ v, v < g.N → Reachable g.toU 0 v
    · obtain ⟨c, hc⟩ := hok hconn
      constructor
      · rw [prim, hc]
        rfl
      · exact ⟨fun _ => hconn, fun _ => ⟨c, by rw [prim]; exact hc⟩⟩
    · push_neg at hconn
      obtain ⟨v, hvN, hnr⟩ := hconn
      have herr' : primRun g (primFuel g) [(0, 0)] ∅ 0 =
          some (Except.error ()) := herr ⟨v, hvN, hnr⟩
      constructor
      · rw [prim, herr']
        rfl
      · constructor
        · rintro ⟨c, hc⟩
          rw [prim, herr'] at hc
          exact Except.noConfusion (Option.some.inj hc)
        · intro hall
          exact absurd (hall v hvN) hnr

/-- **C4** witness: the theorem applied at a concrete connected two-node
graph, where `prim` succeeds. -/
theorem c4_prim_termination_witness :
    (prim (GraphW.mk 2 (fun n => if n = 0 then [1] else [])
        (fun _ _ => 1))).isSome ∧
      ∃ c, prim (GraphW.mk 2 (fun n => if n = 0 then [1] else [])
        (fun _ _ => 1)) = some (Except.ok c) := by
  have hw : WfU (GraphW.mk 2 (fun n => if n = 0 then [1] else [])
      (fun _ _ => 1)).toU := by
    intro n
    refine ⟨?_, ?_, ?_⟩
    · show (if n = 0 then [1] else [] : List ℕ).Nodup
      by_cases h : n = 0 <;> simp [h]
    · intro m hm
      show m < 2
      have hm' : m ∈ (if n = 0 then [1] else [] : List ℕ) := hm
      by_cases h : n = 0
      · rw [if_pos h] at hm'
        simp at hm'
        omega
      · rw [if_neg h] at hm'
        cases hm'
    · intro h2
      have h2' : 2 ≤ n := h2
      show (if n = 0 then [1] else [] : List ℕ) = []
      rw [if_neg (by omega)]
  have hall : ∀ v, v < (GraphW.mk 2 (fun n => if n = 0 then [1] else [])
      (fun _ _ => 1)).N →
      Reachable (GraphW.mk 2 (fun n => if n = 0 then [1] else [])
        (fun _ _ => 1)).toU 0 v := by
    intro v hv
    have hv2 : v < 2 := hv
    rcases v with _ | v
    · exact ⟨[0], path_single _ 0⟩
    rcases v with _ | v
    · exact ⟨[0, 1], ⟨rfl, rfl, List.chain'_pair.mpr
        (show (1 : ℕ) ∈ ([1] : List ℕ) from List.mem_singleton_self 1)⟩⟩
    · omega
  obtain ⟨h1, h2⟩ := c4_prim_termination (GraphW.mk 2
    (fun n => if n = 0 then [1] else []) (fun _ _ => 1)) hw
  exact ⟨h1, h2.mpr hall⟩

theorem pathCost_unit {gw : GraphW}
    (hw1 : ∀ x : ℕ, ∀ y ∈ gw.nbrs x, gw.w x y = 1) :
    ∀ p : List ℕ, List.Chain' (fun x y => y ∈ gw.toU.nbrs x) p → p ≠ [] →
      pathCost gw p = (p.length : ℤ) - 1 := by
  intro p
  induction p with
  | nil => intro _ h; exact absurd rfl h
  | cons a t ih =>
    intro hc _
    rcases t with _ | ⟨b, t'⟩
    · rw [pathCost_single]
      simp
    · rw [pathCost_cons2]
      rw [List.chain'_cons] at hc
      rw [hw1 a b hc.1, ih hc.2 (List.cons_ne_nil b t')]
      simp only [List.length_cons]
      push_cast
      ring

/-- **C7** (corrected).  With unit weights on a weighted graph sharing
its adjacency with the unweighted graph, and for *distinct*, reachable,
in-range `root` and `target`, the BFS path's length minus one equals the
Dijkstra cost.  The claim's "every pair of nodes" fails at
`root = target`, where BFS returns the empty list (length minus one is
`-1`) while `dijkstra` returns `0` (see the counterexample). -/
theorem c7_bfs_dijkstra_unit (g : GraphU) (gw : GraphW) (hw : WfU g)
    (heq : gw.toU = g) (hw1 : ∀ x : ℕ, ∀ y ∈ gw.nbrs x, gw.w x y = 1)
    (root target : ℕ) (hroot : root < g.N) (htarget : target < g.N)
    (hne : root ≠ target) (hreach : Reachable g root target) :
    ∃ p c, bfs g root target = some p ∧ dijkstra gw root target = some c ∧
      (p.length : ℤ) - 1 = c := by
  have hwU : WfU gw.toU := by rw [heq]; exact hw
  have hnn : ∀ x : ℕ, ∀ y ∈ gw.nbrs x, 0 ≤ gw.w x y := by
    intro x y hy
    rw [hw1 x y hy]
    norm_num
  have hNeq : gw.N = g.N := congrArg GraphU.N heq
  have hreach' : Reachable gw.toU root target := by rw [heq]; exact hreach
  obtain ⟨hb1, _⟩ := bfs_correct g hw root target hne
  obtain ⟨p, hbfs, hppath, hpmin⟩ := hb1 hreach
  obtain ⟨_, _, hd3⟩ := c2_dijkstra gw hwU hnn root target
    (by rw [hNeq]; exact hroot) (by rw [hNeq]; exact htarget)
  obtain ⟨c, hdij, ⟨p', hp', hp'c⟩, hcmin⟩ := hd3 hne hreach'
  refine ⟨p, c, hbfs, hdij, ?_⟩
  have hppath' : IsPathFrom gw.toU root target p := by rw [heq]; exact hppath
  have hcle : c ≤ (p.length : ℤ) - 1 := by
    have hmin := hcmin p hppath'
    rw [pathCost_unit hw1 p hppath'.2.2 (path_ne_nil hppath')] at hmin
    exact hmin
  have hp'g : IsPathFrom g root target p' := by rw [← heq]; exact hp'
  have hlen : p.length ≤ p'.length := hpmin p' hp'g
  have hc' : c = (p'.length : ℤ) - 1 := by
    rw [← hp'c, pathCost_unit hw1 p' hp'.2.2 (path_ne_nil hp')]
  omega

/-- **C7** counterexample: on node count 1 with no arcs — built by both
builders — the pair `root = target = 0` has BFS path `[]`, whose length
minus one is `-1`, while `dijkstra` returns `0`. -/
theorem c7_counterexample :
    ∃ gu gw, constructU 1 [] = some gu ∧ constructW 1 [] = some gw ∧
      bfs gu.toU 0 0 = some [] ∧ dijkstra gw.toW 0 0 = some 0 ∧
      ¬((([] : List ℕ).length : ℤ) - 1 = 0) := by
  refine ⟨GraphRawU.mk 1 [[0]] [∅], GraphRawU.mk 1 [[pyInf]] [∅],
    ?_, ?_, ?_, ?_, by decide⟩
  · rfl
  · rfl
  · have hnbrs : ∀ n, (GraphRawU.mk 1 [[0]] [∅]).toU.nbrs n = [] := by
      intro n
      show ((([(∅ : Finset ℤ)]).getD n ∅).sort (· ≤ ·)).map Int.toNat = []
      have hget : ([(∅ : Finset ℤ)]).getD n ∅ = ∅ := by
        rcases n with _ | n
        · rfl
        · exact List.getD_eq_default _ _ (by simp)
      rw [hget, Finset.sort_empty]
      rfl
    have hEq : (GraphRawU.mk 1 [[0]] [∅]).toU = GraphU.mk 1 (fun _ => []) := by
      show GraphU.mk (Int.toNat 1)
        (fun n => ((([(∅ : Finset ℤ)]).getD n ∅).sort (· ≤ ·)).map
          Int.toNat) = GraphU.mk 1 (fun _ => [])
      congr 1
      funext n
      exact hnbrs n
    rw [hEq]
    rfl
  · rfl

/-- **C7** witness: the corrected theorem applied at the mirrored single
edge with unit weights and the distinct reachable pair `0`, `1`. -/
theorem c7_witness :
    ∃ p c, bfs (GraphU.mk 2
        (fun n => if n = 0 then [1] else if n = 1 then [0] else []))
        0 1 = some p ∧
      dijkstra (GraphW.mk 2
        (fun n => if n = 0 then [1] else if n = 1 then [0] else [])
        (fun _ _ => 1)) 0 1 = some c ∧
      (p.length : ℤ) - 1 = c := by
  have hwm : WfU (GraphU.mk 2
      (fun n => if n = 0 then [1] else if n = 1 then [0] else [])) := by
    intro n
    refine ⟨?_, ?_, ?_⟩
    · show (if n = 0 then [1] else if n = 1 then [0] else [] :
        List ℕ).Nodup
      by_cases h0 : n = 0
      · simp [h0]
      · by_cases h1 : n = 1 <;> simp [h0, h1]
    · intro m hm
      show m < 2
      have hm' : m ∈ (if n = 0 then [1] else if n = 1 then [0] else [] :
        List ℕ) := hm
      by_cases h0 : n = 0
      · rw [if_pos h0] at hm'
        simp at hm'
        omega
      · rw [if_neg h0] at hm'
        by_cases h1 : n = 1
        · rw [if_pos h1] at hm'
          simp at hm'
          omega
        · rw [if_neg h1] at hm'
          cases hm'
    · intro h2
      have h2' : 2 ≤ n := h2
      show (if n = 0 then [1] else if n = 1 then [0] else [] :
        List ℕ) = []
      rw [if_neg (by omega), if_neg (by omega)]
  exact c7_bfs_dijkstra_unit
    (GraphU.mk 2 (fun n => if n = 0 then [1] else if n = 1 then [0] else []))
    (GraphW.mk 2 (fun n => if n = 0 then [1] else if n = 1 then [0] else [])
      (fun _ _ => 1))
    hwm rfl (fun x y _ => rfl) 0 1 (by norm_num) (by norm_num)
    (by norm_num)
    ⟨[0, 1], ⟨rfl, rfl, List.chain'_pair.mpr
      (show (1 : ℕ) ∈ ([1] : List ℕ) from List.mem_singleton_self 1)⟩⟩

end GraphsIntro
